import Mathlib

/-!
Verification of the event-driven HTML tree builder, traversal engine and
filter query of `html_parse.py` (lib-html-parse).

The mutable node objects of the source (DocHtmlNode / TagHtmlNode /
DataHtmlNode, linked by child lists and weak parent back-references) are
embedded as a flat store: a `ParserState` holds a list of nodes indexed by
natural-number ids, each node carrying its kind, an optional parent id and
the list of its child ids.  Node ids are allocation order, so a child's id
is always strictly greater than its parent's; the upward `while` loops of
the source are embedded as fuelled recursions, with the store size as fuel
(sufficient because parent ids strictly decrease).
-/

/-- Kind of a tree node: the source's three classes `DocHtmlNode`
(declaration list), `TagHtmlNode` (name and attribute dictionary) and
`DataHtmlNode` (text buffer).  The attribute dictionary is an association
list with pairwise distinct keys, as maintained by `dictUpdate`. -/
inductive NodeKind where
  | doc (decls : List String)
  | tag (tagName : String) (attrs : List (String × String))
  | data (buf : String)
deriving DecidableEq

/-- A node of the store: kind, optional parent id (the weak back-reference
of the source) and child ids (`childs` in the source). -/
structure HtmlNode where
  kind : NodeKind
  parent : Option Nat
  childs : List Nat
deriving DecidableEq

/-- State of `HtmlParser`: the node store (node 0 is the document node
created by `__init__`) and the current-node cursor `_curr_node`. -/
structure ParserState where
  nodes : List HtmlNode
  curr : Nat
deriving DecidableEq

/-- The freshly constructed parser: a single document node, cursor on it. -/
def initState : ParserState := ⟨[⟨.doc [], none, []⟩], 0⟩

/-- Node lookup by id. -/
def getNode? (s : ParserState) (i : Nat) : Option HtmlNode := s.nodes[i]?

/-- The source's `get_parent()`: resolves the back-reference. -/
def parentOf (s : ParserState) (i : Nat) : Option Nat :=
  (getNode? s i).bind (fun n => n.parent)

/-- Child list of a node (empty for an absent id). -/
def childsOf (s : ParserState) (i : Nat) : List Nat :=
  ((getNode? s i).map (fun n => n.childs)).getD []

/-- Kind test on a node: `isinstance(node, DocHtmlNode)`. -/
def HtmlNode.isDoc (n : HtmlNode) : Bool :=
  match n.kind with | .doc _ => true | _ => false

/-- Kind test on a node: `isinstance(node, TagHtmlNode)`. -/
def HtmlNode.isTag (n : HtmlNode) : Bool :=
  match n.kind with | .tag _ _ => true | _ => false

/-- Kind test on a node: `isinstance(node, DataHtmlNode)`. -/
def HtmlNode.isData (n : HtmlNode) : Bool :=
  match n.kind with | .data _ => true | _ => false

/-- Does the node with this id exist and have kind `doc`? -/
def isDocB (s : ParserState) (i : Nat) : Bool :=
  ((getNode? s i).map HtmlNode.isDoc).getD false

/-- Does the node with this id exist and have kind `tag`? -/
def isTagB (s : ParserState) (i : Nat) : Bool :=
  ((getNode? s i).map HtmlNode.isTag).getD false

/-- Does the node with this id exist and have kind `data`? -/
def isDataB (s : ParserState) (i : Nat) : Bool :=
  ((getNode? s i).map HtmlNode.isData).getD false

/-- Document-or-element test: the source's repeated
`isinstance(node, DocHtmlNode) or isinstance(node, TagHtmlNode)`. -/
def isContainerB (s : ParserState) (i : Nat) : Bool :=
  isDocB s i || isTagB s i

/-- Is the node a tag node with the given name (the end-tag match test
`isinstance(closing_node, TagHtmlNode) and closing_node.name == tag`)? -/
def isTagNamedB (s : ParserState) (i : Nat) (tag : String) : Bool :=
  match getNode? s i with
  | some n => match n.kind with | .tag nm _ => nm = tag | _ => false
  | none => false

/-! ## Python primitives used by the source

`int(str)` / `int(str, 16)` and `chr(code)`, and the entity table
`html.entities.name2codepoint`. -/

/-- Whitespace stripped by Python's `int(str)` before parsing (ASCII
subset; the exotic Unicode space characters also stripped by Python do not
occur in character-reference bodies considered here). -/
def isPySpace (c : Char) : Bool :=
  c = ' ' || c = '\t' || c = '\n' || c = '\r' || c = Char.ofNat 11 || c = Char.ofNat 12

/-- Value of a digit character in the given base, as accepted by Python's
`int(str, base)` (decimal digits plus letters of either case). -/
def digitVal (base : Nat) (c : Char) : Option Nat :=
  if '0' ≤ c ∧ c ≤ '9' then
    (if c.toNat - 48 < base then some (c.toNat - 48) else none)
  else if 'a' ≤ c ∧ c ≤ 'z' then
    (if c.toNat - 87 < base then some (c.toNat - 87) else none)
  else if 'A' ≤ c ∧ c ≤ 'Z' then
    (if c.toNat - 55 < base then some (c.toNat - 55) else none)
  else none

/-- Digit-sequence parser for Python's `int`: digits of the base with
single underscores allowed between digits.  A leading underscore is
accepted here (handled by the callers: it is legal only directly after a
base marker such as `0x`), a trailing or doubled underscore never is. -/
def parseDigitsAux (base : Nat) : Nat → List Char → Option Nat
  | acc, [] => some acc
  | acc, '_' :: rest =>
    match rest with
    | c :: rest2 =>
      (match digitVal base c with
       | some d => parseDigitsAux base (acc * base + d) rest2
       | none => none)
    | [] => none
  | acc, c :: rest =>
    match digitVal base c with
    | some d => parseDigitsAux base (acc * base + d) rest
    | none => none

/-- Digit sequence without base marker: nonempty, no leading underscore. -/
def parseDigits (base : Nat) (l : List Char) : Option Nat :=
  match l with
  | [] => none
  | '_' :: _ => none
  | _ => parseDigitsAux base 0 l

/-- Base-16 digit sequence, allowing the optional `0x`/`0X` marker that
Python's `int(str, 16)` accepts (with an optional single underscore right
after the marker). -/
def parseDigitsBase16 (l : List Char) : Option Nat :=
  match l with
  | '0' :: c :: rest =>
    if c = 'x' ∨ c = 'X' then
      (if rest = [] then none else parseDigitsAux 16 0 rest)
    else parseDigits 16 l
  | _ => parseDigits 16 l

/-- Digit-sequence parser dispatching on the base (only bases 10 and 16
are used by the source). -/
def pyIntDigits (base : Nat) (l : List Char) : Option Nat :=
  if base = 16 then parseDigitsBase16 l else parseDigits base l

/-- Strip leading and trailing whitespace. -/
def pyStrip (l : List Char) : List Char :=
  ((l.dropWhile isPySpace).reverse.dropWhile isPySpace).reverse

/-- Python's `int(str, base)` conversion: strip whitespace, optional sign,
then the digit sequence; `none` models the `ValueError` on failure.  Only
ASCII digits are modelled (Python additionally accepts other Unicode
decimal digits, which no character reference considered here uses). -/
def pyInt (base : Nat) (t : String) : Option Int :=
  match pyStrip t.toList with
  | '+' :: rest => (pyIntDigits base rest).map (fun n => (n : Int))
  | '-' :: rest => (pyIntDigits base rest).map (fun n => -(n : Int))
  | l => (pyIntDigits base l).map (fun n => (n : Int))

/-- Python's `chr(code)`: succeeds exactly on codes in `[0, 0x10FFFF]`,
raising `ValueError` (here `none`) otherwise.  Python also accepts the
surrogate codes `0xD800`-`0xDFFF`, which a Lean `String` cannot carry
(`Char.ofNat` maps them to the null character); no property considered
here touches a surrogate code. -/
def pyChr (code : Int) : Option String :=
  if 0 ≤ code ∧ code ≤ 1114111 then some (String.mk [Char.ofNat code.toNat]) else none
/-- The fixed entity table: Python's html.entities.name2codepoint,
mapping standard HTML entity names to Unicode codepoints. -/
def name2codepoint : List (String × Nat) := [
  ("AElig", 198),
  ("Aacute", 193),
  ("Acirc", 194),
  ("Agrave", 192),
  ("Alpha", 913),
  ("Aring", 197),
  ("Atilde", 195),
  ("Auml", 196),
  ("Beta", 914),
  ("Ccedil", 199),
  ("Chi", 935),
  ("Dagger", 8225),
  ("Delta", 916),
  ("ETH", 208),
  ("Eacute", 201),
  ("Ecirc", 202),
  ("Egrave", 200),
  ("Epsilon", 917),
  ("Eta", 919),
  ("Euml", 203),
  ("Gamma", 915),
  ("Iacute", 205),
  ("Icirc", 206),
  ("Igrave", 204),
  ("Iota", 921),
  ("Iuml", 207),
  ("Kappa", 922),
  ("Lambda", 923),
  ("Mu", 924),
  ("Ntilde", 209),
  ("Nu", 925),
  ("OElig", 338),
  ("Oacute", 211),
  ("Ocirc", 212),
  ("Ograve", 210),
  ("Omega", 937),
  ("Omicron", 927),
  ("Oslash", 216),
  ("Otilde", 213),
  ("Ouml", 214),
  ("Phi", 934),
  ("Pi", 928),
  ("Prime", 8243),
  ("Psi", 936),
  ("Rho", 929),
  ("Scaron", 352),
  ("Sigma", 931),
  ("THORN", 222),
  ("Tau", 932),
  ("Theta", 920),
  ("Uacute", 218),
  ("Ucirc", 219),
  ("Ugrave", 217),
  ("Upsilon", 933),
  ("Uuml", 220),
  ("Xi", 926),
  ("Yacute", 221),
  ("Yuml", 376),
  ("Zeta", 918),
  ("aacute", 225),
  ("acirc", 226),
  ("acute", 180),
  ("aelig", 230),
  ("agrave", 224),
  ("alefsym", 8501),
  ("alpha", 945),
  ("amp", 38),
  ("and", 8743),
  ("ang", 8736),
  ("aring", 229),
  ("asymp", 8776),
  ("atilde", 227),
  ("auml", 228),
  ("bdquo", 8222),
  ("beta", 946),
  ("brvbar", 166),
  ("bull", 8226),
  ("cap", 8745),
  ("ccedil", 231),
  ("cedil", 184),
  ("cent", 162),
  ("chi", 967),
  ("circ", 710),
  ("clubs", 9827),
  ("cong", 8773),
  ("copy", 169),
  ("crarr", 8629),
  ("cup", 8746),
  ("curren", 164),
  ("dArr", 8659),
  ("dagger", 8224),
  ("darr", 8595),
  ("deg", 176),
  ("delta", 948),
  ("diams", 9830),
  ("divide", 247),
  ("eacute", 233),
  ("ecirc", 234),
  ("egrave", 232),
  ("empty", 8709),
  ("emsp", 8195),
  ("ensp", 8194),
  ("epsilon", 949),
  ("equiv", 8801),
  ("eta", 951),
  ("eth", 240),
  ("euml", 235),
  ("euro", 8364),
  ("exist", 8707),
  ("fnof", 402),
  ("forall", 8704),
  ("frac12", 189),
  ("frac14", 188),
  ("frac34", 190),
  ("frasl", 8260),
  ("gamma", 947),
  ("ge", 8805),
  ("gt", 62),
  ("hArr", 8660),
  ("harr", 8596),
  ("hearts", 9829),
  ("hellip", 8230),
  ("iacute", 237),
  ("icirc", 238),
  ("iexcl", 161),
  ("igrave", 236),
  ("image", 8465),
  ("infin", 8734),
  ("int", 8747),
  ("iota", 953),
  ("iquest", 191),
  ("isin", 8712),
  ("iuml", 239),
  ("kappa", 954),
  ("lArr", 8656),
  ("lambda", 955),
  ("lang", 9001),
  ("laquo", 171),
  ("larr", 8592),
  ("lceil", 8968),
  ("ldquo", 8220),
  ("le", 8804),
  ("lfloor", 8970),
  ("lowast", 8727),
  ("loz", 9674),
  ("lrm", 8206),
  ("lsaquo", 8249),
  ("lsquo", 8216),
  ("lt", 60),
  ("macr", 175),
  ("mdash", 8212),
  ("micro", 181),
  ("middot", 183),
  ("minus", 8722),
  ("mu", 956),
  ("nabla", 8711),
  ("nbsp", 160),
  ("ndash", 8211),
  ("ne", 8800),
  ("ni", 8715),
  ("not", 172),
  ("notin", 8713),
  ("nsub", 8836),
  ("ntilde", 241),
  ("nu", 957),
  ("oacute", 243),
  ("ocirc", 244),
  ("oelig", 339),
  ("ograve", 242),
  ("oline", 8254),
  ("omega", 969),
  ("omicron", 959),
  ("oplus", 8853),
  ("or", 8744),
  ("ordf", 170),
  ("ordm", 186),
  ("oslash", 248),
  ("otilde", 245),
  ("otimes", 8855),
  ("ouml", 246),
  ("para", 182),
  ("part", 8706),
  ("permil", 8240),
  ("perp", 8869),
  ("phi", 966),
  ("pi", 960),
  ("piv", 982),
  ("plusmn", 177),
  ("pound", 163),
  ("prime", 8242),
  ("prod", 8719),
  ("prop", 8733),
  ("psi", 968),
  ("quot", 34),
  ("rArr", 8658),
  ("radic", 8730),
  ("rang", 9002),
  ("raquo", 187),
  ("rarr", 8594),
  ("rceil", 8969),
  ("rdquo", 8221),
  ("real", 8476),
  ("reg", 174),
  ("rfloor", 8971),
  ("rho", 961),
  ("rlm", 8207),
  ("rsaquo", 8250),
  ("rsquo", 8217),
  ("sbquo", 8218),
  ("scaron", 353),
  ("sdot", 8901),
  ("sect", 167),
  ("shy", 173),
  ("sigma", 963),
  ("sigmaf", 962),
  ("sim", 8764),
  ("spades", 9824),
  ("sub", 8834),
  ("sube", 8838),
  ("sum", 8721),
  ("sup", 8835),
  ("sup1", 185),
  ("sup2", 178),
  ("sup3", 179),
  ("supe", 8839),
  ("szlig", 223),
  ("tau", 964),
  ("there4", 8756),
  ("theta", 952),
  ("thetasym", 977),
  ("thinsp", 8201),
  ("thorn", 254),
  ("tilde", 732),
  ("times", 215),
  ("trade", 8482),
  ("uArr", 8657),
  ("uacute", 250),
  ("uarr", 8593),
  ("ucirc", 251),
  ("ugrave", 249),
  ("uml", 168),
  ("upsih", 978),
  ("upsilon", 965),
  ("uuml", 252),
  ("weierp", 8472),
  ("xi", 958),
  ("yacute", 253),
  ("yen", 165),
  ("yuml", 255),
  ("zeta", 950),
  ("zwj", 8205),
  ("zwnj", 8204)
]

/-- The source's `_entityref_handle` resolution step: look the name up in
`name2codepoint` and convert with `chr`; on `KeyError` / `ValueError` /
`ArithmeticError` fall back to the literal reference text. -/
def resolveEntityRef (ename : String) : String :=
  match name2codepoint.lookup ename with
  | some code =>
    (match pyChr (code : Int) with
     | some t => t
     | none => "&" ++ ename ++ ";")
  | none => "&" ++ ename ++ ";"

/-- The integer-parsing step of `_charref_handle`:
`int(name[1:], 16) if name.startswith('x') else int(name)`. -/
def charRefCode (cname : String) : Option Int :=
  match cname.toList with
  | 'x' :: rest => pyInt 16 (String.mk rest)
  | _ => pyInt 10 cname

/-- The source's `_charref_handle` resolution step: parse the reference
body (hexadecimal after a lowercase `x`, decimal otherwise), convert with
`chr`; on `ValueError` / `ArithmeticError` (including the `OverflowError`
of an out-of-range `chr` argument) fall back to the literal text. -/
def resolveCharRef (cname : String) : String :=
  match charRefCode cname with
  | some code =>
    (match pyChr code with
     | some t => t
     | none => "&#" ++ cname ++ ";")
  | none => "&#" ++ cname ++ ";"

/-! ## Attribute dictionaries

`TagHtmlNode.attrs` is a Python dict filled once by
`new_node.attrs.update(attrs)`; embedded as an association list with
pairwise distinct keys, insertion-ordered, updated in place. -/

/-- Single dict assignment `d[k] = v`: overwrite in place if the key is
present, append otherwise. -/
def dictSet (d : List (String × String)) (k v : String) : List (String × String) :=
  if d.any (fun kv => kv.1 = k) then d.map (fun kv => if kv.1 = k then (k, v) else kv)
  else d ++ [(k, v)]

/-- Python's `dict.update(pairs)`: assign the pairs left to right. -/
def dictUpdate (d : List (String × String)) (kvs : List (String × String)) :
    List (String × String) :=
  kvs.foldl (fun acc kv => dictSet acc kv.1 kv.2) d

/-- Dict lookup `d[k]` (`none` models `KeyError` / `k not in d`). -/
def dictGet? (d : List (String × String)) (k : String) : Option String :=
  (d.find? (fun kv => kv.1 = k)).map (fun kv => kv.2)

/-! ## The tree builder (`HtmlParser` event handlers) -/

/-- In-place modification of one node of the store (no-op on an absent
id, which never arises from the initial state). -/
def listUpdate (l : List HtmlNode) (i : Nat) (f : HtmlNode → HtmlNode) : List HtmlNode :=
  match l[i]? with
  | some n => l.set i (f n)
  | none => l

/-- The upward search of `_starttag_handle` / `_data_handle`:
`while not isinstance(parent_node, (DocHtmlNode, TagHtmlNode)): parent_node = parent_node.get_parent()`.
Fuelled; a missing parent or exhausted fuel returns the node reached
(neither occurs in states reachable from `initState`, where the loop takes
at most one step because a data node's parent is always a container). -/
def findParent (s : ParserState) : Nat → Nat → Nat
  | 0, i => i
  | fuel + 1, i =>
    if isContainerB s i then i
    else
      match parentOf s i with
      | some p => findParent s fuel p
      | none => i

/-- The source's `_starttag_handle`: find the insertion parent, create a
tag node whose attribute dict is filled from `attrs` (last write wins),
append it to the parent's `childs`, move the cursor onto it. -/
def starttag_handle (s : ParserState) (tag : String) (attrs : List (String × String)) :
    ParserState :=
  let p := findParent s s.nodes.length s.curr
  let newId := s.nodes.length
  let node : HtmlNode := ⟨.tag tag (dictUpdate [] attrs), some p, []⟩
  ⟨listUpdate (s.nodes ++ [node]) p (fun n => { n with childs := n.childs ++ [newId] }), newId⟩

/-- The upward search of `_endtag_handle`: walk the ancestor chain from
the cursor; stop with `none` at the document node, stop with the node id
at the first tag node carrying the searched name.  Fuelled; a missing
parent (a dead weak reference in the source, impossible from the initial
state) also yields `none`. -/
def findClosing (s : ParserState) (tag : String) : Nat → Nat → Option Nat
  | 0, _ => none
  | fuel + 1, i =>
    if isDocB s i then none
    else if isTagNamedB s i tag then some i
    else
      match parentOf s i with
      | some p => findClosing s tag fuel p
      | none => none

/-- The source's `_endtag_handle`: if the search finds a matching open
tag, the cursor moves to that node's parent; otherwise nothing happens.
(The `getD` default is irrelevant from the initial state: a matched tag
node always has a live parent.) -/
def endtag_handle (s : ParserState) (tag : String) : ParserState :=
  match findClosing s tag s.nodes.length s.curr with
  | some c => { s with curr := (parentOf s c).getD s.curr }
  | none => s

/-- The source's `_data_handle`: if the cursor is a data node, append the
text to its buffer; otherwise create a data node under the insertion
parent and move the cursor onto it. -/
def data_handle (s : ParserState) (t : String) : ParserState :=
  match getNode? s s.curr with
  | some n =>
    (match n.kind with
     | .data buf => { s with nodes := s.nodes.set s.curr { n with kind := .data (buf ++ t) } }
     | _ =>
       let p := findParent s s.nodes.length s.curr
       let newId := s.nodes.length
       let node : HtmlNode := ⟨.data t, some p, []⟩
       ⟨listUpdate (s.nodes ++ [node]) p (fun m => { m with childs := m.childs ++ [newId] }),
        newId⟩)
  | none => s

/-- The source's `_decl_handle`: append the declaration text to the
document node's `decl` list; the child tree and cursor are untouched. -/
def decl_handle (s : ParserState) (d : String) : ParserState :=
  { s with
    nodes := listUpdate s.nodes 0 (fun n =>
      match n.kind with
      | .doc ds => { n with kind := .doc (ds ++ [d]) }
      | _ => n) }

/-- The six tokenizer events fed to the builder (§6 of the spec). -/
inductive HtmlEvent where
  | startTag (tag : String) (attrs : List (String × String))
  | endTag (tag : String)
  | dataEv (t : String)
  | entityRef (ename : String)
  | charRef (cname : String)
  | declEv (d : String)
deriving DecidableEq

/-- One step of the builder state machine: dispatch an event to its
handler; entity and character references resolve to text and then follow
the data path, exactly as in `_entityref_handle` / `_charref_handle`. -/
def processEvent (s : ParserState) : HtmlEvent → ParserState
  | .startTag tag attrs => starttag_handle s tag attrs
  | .endTag tag => endtag_handle s tag
  | .dataEv t => data_handle s t
  | .entityRef en => data_handle s (resolveEntityRef en)
  | .charRef cn => data_handle s (resolveCharRef cn)
  | .declEv d => decl_handle s d

/-- Processing of a whole event sequence. -/
def processEvents (s : ParserState) (es : List HtmlEvent) : ParserState :=
  es.foldl processEvent s

/-! ## Traversal engine (`get_all_nodes`) -/

/-- What one iteration of the source's `for node in node_iter` loop yields
for a single node: the node itself when `direct_only` is false, its
children when `direct_only` is true and it is a container. -/
def nodeYield (s : ParserState) (direct_only : Bool) (i : Nat) : List Nat :=
  if direct_only then (if isContainerB s i then childsOf s i else []) else [i]

/-- What that iteration adds to `next_node_list` for a single node:
the children of a container, only when `direct_only` is false. -/
def nodeNext (s : ParserState) (direct_only : Bool) (i : Nat) : List Nat :=
  if direct_only then [] else (if isContainerB s i then childsOf s i else [])

/-- The `while True` level loop of `get_all_nodes`: process the current
level, then recurse on the collected next level unless it is empty.
Fuelled by the number of levels; `s.nodes.length + 1` levels always
suffice because ids strictly increase down any child chain. -/
def getAllNodesLoop (s : ParserState) (direct_only : Bool) : Nat → List Nat → List Nat
  | 0, _ => []
  | fuel + 1, lvl =>
    lvl.flatMap (nodeYield s direct_only) ++
      (let nx := lvl.flatMap (nodeNext s direct_only)
       if nx.isEmpty then [] else getAllNodesLoop s direct_only fuel nx)

/-- The source's `get_all_nodes(node_list, direct_only)` generator, as the
list of yielded node ids. -/
def get_all_nodes (s : ParserState) (node_list : List Nat) (direct_only : Bool) : List Nat :=
  getAllNodesLoop s direct_only (s.nodes.length + 1) node_list

/-! ## Filter query (`find_tags`) -/

/-- Python's `str.split(' ')` (single-space separator, empty pieces
preserved), on character lists. -/
def splitSpacesAux : List Char → List Char → List (List Char)
  | acc, [] => [acc.reverse]
  | acc, c :: rest =>
    if c = ' ' then acc.reverse :: splitSpacesAux [] rest else splitSpacesAux (c :: acc) rest

/-- Python's `value.split(' ')` on strings. -/
def splitSpaces (t : String) : List String :=
  (splitSpacesAux [] t.toList).map String.mk

/-- The source's `check_filter` predicate: tag nodes only, exact name
match when requested, exact value match for every pair of `attrs`,
space-token membership for every pair of `in_attrs`. -/
def check_filter (s : ParserState) (tagName : Option String)
    (attrs in_attrs : List (String × String)) (i : Nat) : Bool :=
  match getNode? s i with
  | some n =>
    (match n.kind with
     | .tag nm nattrs =>
       (match tagName with
        | some wanted => wanted = nm
        | none => true) &&
       attrs.all (fun kv =>
         match dictGet? nattrs kv.1 with
         | some v => v = kv.2
         | none => false) &&
       in_attrs.all (fun kv =>
         match dictGet? nattrs kv.1 with
         | some v => (splitSpaces v).contains kv.2
         | none => false)
     | _ => false)
  | none => false

/-- The source's `find_tags`: filter the traversal by `check_filter`. -/
def find_tags (s : ParserState) (node_list : List Nat) (tagName : Option String)
    (attrs in_attrs : List (String × String)) (direct_only : Bool) : List Nat :=
  (get_all_nodes s node_list direct_only).filter (check_filter s tagName attrs in_attrs)

/-! ## Printer (`print_node`) -/

/-- Simplified rendering of Python's `repr` for strings (quotes around the
raw text; the character escaping of `repr` is elided — no property below
depends on the rendered contents). -/
def pyReprStr (t : String) : String :=
  String.mk (Char.ofNat 39 :: t.toList ++ [Char.ofNat 39])

/-- Rendering of Python's `repr` for the declaration list. -/
def pyReprList (l : List String) : String :=
  "[" ++ String.intercalate ", " (l.map pyReprStr) ++ "]"

/-- Rendering of Python's `repr` for the attribute dictionary. -/
def pyReprDict (d : List (String × String)) : String :=
  "\x7b" ++ String.intercalate ", " (d.map (fun kv => pyReprStr kv.1 ++ ": " ++ pyReprStr kv.2)) ++ "\x7d"

/-- Indentation by a number of spaces. -/
def indentStr (k : Nat) : String :=
  String.mk (List.replicate k ' ')

/-- One step of `print_node`, parameterised by the function used for the
recursive calls on children: emit the depth-guard diagnostic at level 100,
otherwise render the node and recurse into the children of a container at
the next level.  An id that denotes no node renders the source's final
`Error: unknown type` line. -/
def printNodeStep (s : ParserState) (recur : Nat → Nat → Option (List String))
    (i level : Nat) : Option (List String) :=
  if 100 ≤ level then some [indentStr (level * 2) ++ "Error: level too big"]
  else
    match getNode? s i with
    | some n =>
      (match n.kind with
       | .data buf => some [indentStr (level * 2) ++ "DataHtmlNode: " ++ pyReprStr buf]
       | .doc ds =>
         (n.childs.mapM (fun c => recur c (level + 1))).map (fun ls =>
           (indentStr (level * 2) ++ "DocHtmlNode:") ::
           (indentStr (level * 2 + 4) ++ "decl: " ++ pyReprList ds) :: ls.flatten)
       | .tag nm nattrs =>
         (n.childs.mapM (fun c => recur c (level + 1))).map (fun ls =>
           (indentStr (level * 2) ++ "TagHtmlNode(" ++ pyReprStr nm ++ "):") ::
           (indentStr (level * 2 + 4) ++ "attrs: " ++ pyReprDict nattrs) :: ls.flatten))
    | none => some [indentStr (level * 2) ++ "Error: unknown type"]

/-- The source's `print_node`, with an explicit recursion budget: `none`
models a recursion that would not have returned within the budget.  The
budget decreases by one per tree level; the theorem for the printing claim
shows that a budget exceeding `100 - level` always suffices, thanks to the
level ceiling. -/
def print_node (s : ParserState) : Nat → Nat → Nat → Option (List String)
  | 0 => fun _ _ => none
  | fuel + 1 => printNodeStep s (print_node s fuel)

/-! ## Specification-side notions

These definitions follow the wording of the specification (ancestor
chains, closed subtrees, breadth-first levels, last-write-wins) and are
related to the source translations by the theorems below. -/

/-- Ancestor-or-self chain of a node as a list: the node, its parent, its
grandparent, ...; fuelled (the store size always suffices, since parent
ids strictly decrease). -/
def ancChain (s : ParserState) : Nat → Nat → List Nat
  | 0, i => [i]
  | fuel + 1, i =>
    i ::
      (match parentOf s i with
       | some p => ancChain s fuel p
       | none => [])

/-- `AncOrSelf s a j` holds when `a` lies on the ancestor-or-self chain of
`j` (following parent references upward from `j`). -/
inductive AncOrSelf (s : ParserState) : Nat → Nat → Prop where
  | refl (i : Nat) : AncOrSelf s i i
  | step {a p j : Nat} : parentOf s j = some p → AncOrSelf s a p → AncOrSelf s a j

/-- Closed-subtree membership: `SubtreeRel s r n` holds when `n` is
reachable from `r` along child links, only container nodes (document and
element) contributing children. -/
inductive SubtreeRel (s : ParserState) : Nat → Nat → Prop where
  | refl (i : Nat) : SubtreeRel s i i
  | child {r c n : Nat} : isContainerB s r = true → c ∈ childsOf s r →
      SubtreeRel s c n → SubtreeRel s r n

/-- Fuelled boolean closed-subtree membership test (agrees with
`SubtreeRel` at fuel `s.nodes.length + 1` on well-formed stores). -/
def memSubtree (s : ParserState) : Nat → Nat → Nat → Bool
  | 0, _, _ => false
  | fuel + 1, r, n =>
    r = n || (isContainerB s r && (childsOf s r).any (fun c => memSubtree s fuel c n))

/-- One breadth-first level expansion: the concatenated child lists of the
container nodes of a level (text nodes contribute no children). -/
def bfsExpand (s : ParserState) (lvl : List Nat) : List Nat :=
  lvl.flatMap (fun i => if isContainerB s i then childsOf s i else [])

/-- Specification-side reading of the last-write-wins rule for start-tag
attributes: the value of the last pair carrying the key. -/
def lastWins (attrs : List (String × String)) (k : String) : Option String :=
  (attrs.reverse.find? (fun kv => kv.1 = k)).map (fun kv => kv.2)

/-- No two adjacent data nodes in a child id list. -/
def noAdjData (s : ParserState) : List Nat → Bool
  | x :: y :: rest => (!(isDataB s x && isDataB s y)) && noAdjData s (y :: rest)
  | _ => true

/-- Sample build of the specification's example tree
Document → Element a → (Element b, Element c): ids 0, 1, 2, 3. -/
def sampleTree : ParserState :=
  processEvents initState
    [.startTag "a" [], .startTag "b" [], .endTag "b", .startTag "c" []]

/-- Sample build for the end-tag claim: `<b><i>text` then `</b>`. -/
def sampleOpenTree : ParserState :=
  processEvents initState [.startTag "b" [], .startTag "i" [], .dataEv "text"]

/-! ## Basic store lemmas -/

theorem getNode?_lt_length {s : ParserState} {i : Nat} {n : HtmlNode}
    (h : getNode? s i = some n) : i < s.nodes.length :=
  (List.getElem?_eq_some_iff.mp h).1

theorem getNode?_of_lt {s : ParserState} {i : Nat} (h : i < s.nodes.length) :
    ∃ n, getNode? s i = some n := by
  rcases List.getElem?_eq_some_iff.mpr ⟨h, rfl⟩ with h2
  exact ⟨_, h2⟩

theorem listUpdate_length (l : List HtmlNode) (i : Nat) (f : HtmlNode → HtmlNode) :
    (listUpdate l i f).length = l.length := by
  unfold listUpdate
  cases h : l[i]? <;> simp

theorem listUpdate_getElem?_self {l : List HtmlNode} {i : Nat} {n : HtmlNode}
    (f : HtmlNode → HtmlNode) (h : l[i]? = some n) : (listUpdate l i f)[i]? = some (f n) := by
  unfold listUpdate
  rw [h]
  have hlt : i < l.length := (List.getElem?_eq_some_iff.mp h).1
  simp [List.getElem?_set_self, List.getElem?_eq_getElem, hlt]

theorem listUpdate_getElem?_ne {l : List HtmlNode} {i j : Nat}
    (f : HtmlNode → HtmlNode) (h : j ≠ i) : (listUpdate l i f)[j]? = l[j]? := by
  unfold listUpdate
  cases h2 : l[i]? with
  | none => rfl
  | some n => exact List.getElem?_set_ne (fun he => h he.symm)

/-! ## The builder invariant

`WFP` collects the structural properties that every state reachable from
`initState` satisfies; it is established for `initState` and preserved by
every event below. -/

/-- Membership in a child list, unfolded. -/
theorem mem_childsOf {s : ParserState} {p j : Nat} :
    j ∈ childsOf s p ↔ ∃ m, getNode? s p = some m ∧ j ∈ m.childs := by
  unfold childsOf
  cases h : getNode? s p with
  | none => simp
  | some m => simp

/-- Well-formedness of builder states: a unique parentless document node
at id 0, a cursor inside the store, parent/child links mutually
consistent with ids increasing downward, duplicate-free child lists, data
nodes as leaves, no two adjacent data children anywhere, and the
coalescing invariant: a container whose last child is a data node either
has the cursor on that data node or lies off the cursor's ancestor
chain. -/
structure WFP (s : ParserState) : Prop where
  len_pos : 0 < s.nodes.length
  root_parent : parentOf s 0 = none
  root_doc : isDocB s 0 = true
  doc_unique : ∀ i, isDocB s i = true → i = 0
  curr_lt : s.curr < s.nodes.length
  child_parent : ∀ i n, getNode? s i = some n → ∀ j ∈ n.childs,
    i < j ∧ j < s.nodes.length ∧ parentOf s j = some i
  parent_child : ∀ j n p, getNode? s j = some n → n.parent = some p →
    j ∈ childsOf s p ∧ isContainerB s p = true
  parent_total : ∀ j n, getNode? s j = some n → j ≠ 0 → n.parent ≠ none
  childs_nodup : ∀ i n, getNode? s i = some n → n.childs.Nodup
  data_leaf : ∀ i n b, getNode? s i = some n → n.kind = .data b → n.childs = []
  no_adj : ∀ i n, getNode? s i = some n → noAdjData s n.childs = true
  last_data : ∀ i n d, getNode? s i = some n → n.childs.getLast? = some d →
    isDataB s d = true → s.curr = d ∨ ¬ AncOrSelf s i s.curr

/-- The store fragment of the invariant used by the traversal theorems. -/
structure StoreWF (s : ParserState) : Prop where
  child_parent : ∀ i n, getNode? s i = some n → ∀ j ∈ n.childs,
    i < j ∧ j < s.nodes.length ∧ parentOf s j = some i
  childs_nodup : ∀ i n, getNode? s i = some n → n.childs.Nodup
  data_childs : ∀ i n b, getNode? s i = some n → n.kind = .data b → n.childs = []

theorem WFP.toStoreWF {s : ParserState} (hw : WFP s) : StoreWF s :=
  ⟨hw.child_parent, hw.childs_nodup, hw.data_leaf⟩

/-- A resolvable parent reference points strictly upward, with the
matching child-list entry and a container parent. -/
theorem parentOf_facts {s : ParserState} (hw : WFP s) {j p : Nat}
    (h : parentOf s j = some p) :
    p < j ∧ j ∈ childsOf s p ∧ isContainerB s p = true := by
  unfold parentOf at h
  cases hn : getNode? s j with
  | none => rw [hn] at h; simp at h
  | some n =>
    rw [hn] at h
    rw [Option.some_bind] at h
    obtain ⟨hmem, hcont⟩ := hw.parent_child j n p hn h
    rcases mem_childsOf.mp hmem with ⟨m, hm, hjm⟩
    obtain ⟨hlt, _, _⟩ := hw.child_parent p m hm j hjm
    exact ⟨hlt, hmem, hcont⟩

theorem parentOf_lt {s : ParserState} (hw : WFP s) {j p : Nat}
    (h : parentOf s j = some p) : p < j :=
  (parentOf_facts hw h).1

theorem parentOf_lt_length {s : ParserState} {j p : Nat}
    (h : parentOf s j = some p) : j < s.nodes.length := by
  unfold parentOf at h
  cases hn : getNode? s j with
  | none => rw [hn] at h; simp at h
  | some n => exact getNode?_lt_length hn

/-- Ancestors have smaller or equal ids. -/
theorem AncOrSelf.le {s : ParserState} (hw : WFP s) {a b : Nat}
    (h : AncOrSelf s a b) : a ≤ b := by
  induction h with
  | refl => exact le_refl _
  | step hp _ ih => exact le_trans ih (le_of_lt (parentOf_lt hw hp))

theorem AncOrSelf.trans {s : ParserState} {a b c : Nat}
    (h1 : AncOrSelf s a b) (h2 : AncOrSelf s b c) : AncOrSelf s a c := by
  induction h2 with
  | refl => exact h1
  | step hp _ ih => exact AncOrSelf.step hp ih

/-- A strict ancestor relation factors through the parent. -/
theorem AncOrSelf.shift {s : ParserState} {a j : Nat}
    (h : AncOrSelf s a j) (hne : a ≠ j) :
    ∃ p, parentOf s j = some p ∧ AncOrSelf s a p := by
  cases h with
  | refl => exact absurd rfl hne
  | step hp h2 => exact ⟨_, hp, h2⟩

/-- A node that exists but is no container is a data node whose parent
resolves to a container (so the insertion-parent loop takes one step). -/
theorem noncontainer_parent {s : ParserState} (hw : WFP s) {i : Nat} {n : HtmlNode}
    (hn : getNode? s i = some n) (hc : isContainerB s i = false) :
    ∃ p, parentOf s i = some p ∧ isContainerB s p = true := by
  have hi0 : i ≠ 0 := by
    intro he
    subst he
    have := hw.root_doc
    simp [isContainerB, this] at hc
  have hpne := hw.parent_total i n hn hi0
  cases hp : n.parent with
  | none => exact absurd hp hpne
  | some p =>
    obtain ⟨_, hcont⟩ := hw.parent_child i n p hn hp
    exact ⟨p, by simp [parentOf, hn, hp], hcont⟩

/-- Characterisation of the insertion-parent loop on well-formed states:
identity on containers, one parent step otherwise. -/
theorem findParent_spec {s : ParserState} (hw : WFP s) {i : Nat}
    (hc : i < s.nodes.length) :
    (isContainerB s i = true → findParent s s.nodes.length i = i) ∧
    (isContainerB s i = false →
      ∃ p, parentOf s i = some p ∧ isContainerB s p = true ∧
        findParent s s.nodes.length i = p) := by
  obtain ⟨n, hn⟩ := getNode?_of_lt hc
  cases hlen : s.nodes.length with
  | zero => omega
  | succ k =>
    constructor
    · intro hcont
      unfold findParent
      simp [hcont]
    · intro hncont
      obtain ⟨p, hp, hpc⟩ := noncontainer_parent hw hn hncont
      refine ⟨p, hp, hpc, ?_⟩
      have hi0 : i ≠ 0 := by
        intro he
        subst he
        have := hw.root_doc
        simp [isContainerB, this] at hncont
      have hk : 1 ≤ k := by
        have hplt : p < i := parentOf_lt hw hp
        omega
      obtain ⟨k2, rfl⟩ : ∃ k2, k = k2 + 1 := ⟨k - 1, by omega⟩
      unfold findParent
      simp only [hncont, hp]
      unfold findParent
      simp [hpc]

/-! Unfolding equations for the fuelled recursions (proved by `rfl`, used
instead of `unfold` to keep goals readable). -/

theorem findParent_succ (s : ParserState) (fuel i : Nat) :
    findParent s (fuel + 1) i =
      if isContainerB s i then i
      else
        match parentOf s i with
        | some p => findParent s fuel p
        | none => i := rfl

theorem findClosing_succ (s : ParserState) (tag : String) (fuel i : Nat) :
    findClosing s tag (fuel + 1) i =
      if isDocB s i then none
      else if isTagNamedB s i tag then some i
      else
        match parentOf s i with
        | some p => findClosing s tag fuel p
        | none => none := rfl

theorem ancChain_succ (s : ParserState) (fuel i : Nat) :
    ancChain s (fuel + 1) i =
      i ::
        (match parentOf s i with
         | some p => ancChain s fuel p
         | none => []) := rfl

theorem memSubtree_succ (s : ParserState) (fuel r n : Nat) :
    memSubtree s (fuel + 1) r n =
      (r = n || (isContainerB s r && (childsOf s r).any (fun c => memSubtree s fuel c n))) := rfl

theorem getAllNodesLoop_succ (s : ParserState) (d : Bool) (fuel : Nat) (lvl : List Nat) :
    getAllNodesLoop s d (fuel + 1) lvl =
      lvl.flatMap (nodeYield s d) ++
        (let nx := lvl.flatMap (nodeNext s d)
         if nx.isEmpty then [] else getAllNodesLoop s d fuel nx) := rfl

/-- Characterisation of the end-tag search on well-formed states: it
returns exactly the first tag node named `tag` on the cursor's
ancestor-or-self chain truncated before the document node. -/
theorem findClosing_spec {s : ParserState} (hw : WFP s) (tag : String) :
    ∀ fuel i, i < s.nodes.length → i < fuel →
      findClosing s tag fuel i =
        ((ancChain s fuel i).takeWhile (fun j => !(isDocB s j))).find?
          (fun j => isTagNamedB s j tag) := by
  intro fuel
  induction fuel with
  | zero => intro i h1 h2; omega
  | succ f ih =>
    intro i hlen hfuel
    by_cases hdoc : isDocB s i = true
    · rw [findClosing_succ, ancChain_succ]
      cases hpp : parentOf s i with
      | none => simp [hdoc, List.takeWhile_cons]
      | some p => simp [hdoc, List.takeWhile_cons]
    · replace hdoc : isDocB s i = false := by
        cases h : isDocB s i
        · rfl
        · exact absurd h hdoc
      by_cases htag : isTagNamedB s i tag = true
      · rw [findClosing_succ, ancChain_succ]
        cases hpp : parentOf s i with
        | none => simp [hdoc, htag, List.takeWhile_cons]
        | some p => simp [hdoc, htag, List.takeWhile_cons]
      · replace htag : isTagNamedB s i tag = false := by
          cases h : isTagNamedB s i tag
          · rfl
          · exact absurd h htag
        have hi0 : i ≠ 0 := by
          intro he
          subst he
          rw [hw.root_doc] at hdoc
          exact Bool.true_eq_false.mp hdoc
        obtain ⟨n, hn⟩ := getNode?_of_lt hlen
        have hpne := hw.parent_total i n hn hi0
        cases hp2 : n.parent with
        | none => exact absurd hp2 hpne
        | some p =>
          have hp : parentOf s i = some p := by simp [parentOf, hn, hp2]
          have hplt : p < i := parentOf_lt hw hp
          have hstep : findClosing s tag (f + 1) i = findClosing s tag f p := by
            rw [findClosing_succ]
            simp [hdoc, htag, hp]
          have hchain : ancChain s (f + 1) i = i :: ancChain s f p := by
            rw [ancChain_succ, hp]
          rw [hstep, hchain, List.takeWhile_cons]
          simp only [hdoc, Bool.not_false, if_pos]
          rw [List.find?_cons_of_neg _ (by simp [htag])]
          exact ih p (by omega) (by omega)

/-- On well-formed states the insertion parent computed by the source's
upward loop is exactly the first container on the cursor's
ancestor-or-self chain. -/
theorem ancChain_find_container {s : ParserState} (hw : WFP s) {i : Nat}
    (hlen : i < s.nodes.length) :
    (ancChain s s.nodes.length i).find? (fun j => isContainerB s j) =
      some (findParent s s.nodes.length i) := by
  obtain ⟨hcont, hncont⟩ := findParent_spec hw hlen
  by_cases hc : isContainerB s i = true
  · rw [hcont hc]
    cases hlen2 : s.nodes.length with
    | zero => omega
    | succ k =>
      rw [ancChain_succ]
      exact List.find?_cons_of_pos _ (by simp [hc])
  · replace hc : isContainerB s i = false := by
      cases h : isContainerB s i
      · rfl
      · exact absurd h hc
    obtain ⟨p, hp, hpc, heq⟩ := hncont hc
    rw [heq]
    have hi0 : i ≠ 0 := by
      intro he
      subst he
      have := hw.root_doc
      simp [isContainerB, this] at hc
    have hplt : p < i := parentOf_lt hw hp
    cases hlen2 : s.nodes.length with
    | zero => omega
    | succ k =>
      have hk : 1 ≤ k := by omega
      obtain ⟨k2, rfl⟩ : ∃ k2, k = k2 + 1 := ⟨k - 1, by omega⟩
      rw [ancChain_succ, hp]
      rw [List.find?_cons_of_neg _ (by simp [hc])]
      show ((ancChain s (k2 + 1) p).find? fun j => isContainerB s j) = some p
      rw [ancChain_succ]
      exact List.find?_cons_of_pos _ (by simp [hpc])

/-! ## Dictionary lemmas -/

theorem dictGet?_map_overwrite (k1 v1 k : String) :
    ∀ d : List (String × String),
      dictGet? (d.map (fun kv => if kv.1 = k1 then (k1, v1) else kv)) k =
        (if k1 = k then (if d.any (fun kv => kv.1 = k1) then some v1 else none)
         else dictGet? d k) := by
  intro d
  induction d with
  | nil => by_cases h : k1 = k <;> simp [dictGet?, h]
  | cons kv d ih =>
    by_cases h1 : kv.1 = k1
    · by_cases h2 : k1 = k
      · subst h2
        simp [dictGet?, List.find?_cons, h1, List.any_cons]
      · have hne : kv.1 ≠ k := by rw [h1]; exact h2
        simp only [List.map_cons, if_pos h1]
        unfold dictGet? at ih ⊢
        rw [List.find?_cons_of_neg _ (by simp [h2]), List.find?_cons_of_neg _ (by simp [hne])]
        rw [if_neg h2] at ih ⊢
        exact ih
    · by_cases h2 : kv.1 = k
      · have hk : k1 ≠ k := by
          intro he
          exact h1 (h2.trans he.symm)
        simp only [List.map_cons, if_neg h1]
        unfold dictGet?
        rw [List.find?_cons_of_pos _ (by simp [h2]), List.find?_cons_of_pos _ (by simp [h2])]
        simp [hk]
      · simp only [List.map_cons, if_neg h1]
        unfold dictGet? at ih ⊢
        rw [List.find?_cons_of_neg _ (by simp [h2]), List.find?_cons_of_neg _ (by simp [h2])]
        rw [ih]
        rw [List.any_cons, decide_eq_false h1, Bool.false_or]

theorem dictGet?_dictSet (d : List (String × String)) (k1 v1 k : String) :
    dictGet? (dictSet d k1 v1) k = if k1 = k then some v1 else dictGet? d k := by
  unfold dictSet
  by_cases hany : d.any (fun kv => kv.1 = k1) = true
  · rw [if_pos hany, dictGet?_map_overwrite, hany]
    by_cases h : k1 = k <;> simp [h]
  · replace hany : d.any (fun kv => kv.1 = k1) = false := by
      cases h : d.any (fun kv => kv.1 = k1)
      · rfl
      · exact absurd h hany
    rw [if_neg (by simp [hany])]
    unfold dictGet?
    rw [List.find?_append]
    by_cases h : k1 = k
    · subst h
      have hnone : d.find? (fun kv => kv.1 = k1) = none := by
        rw [List.find?_eq_none]
        intro kv hkv
        have := List.any_eq_false.mp hany kv hkv
        simpa using this
      rw [hnone]
      simp
    · have hone : List.find? (fun kv => kv.1 = k) [(k1, v1)] = none := by
        simp [List.find?, h]
      rw [hone]
      simp [h]

theorem dictUpdate_cons (d : List (String × String)) (kv : String × String)
    (kvs : List (String × String)) :
    dictUpdate d (kv :: kvs) = dictUpdate (dictSet d kv.1 kv.2) kvs := rfl

theorem lastWins_cons (kv : String × String) (kvs : List (String × String)) (k : String) :
    lastWins (kv :: kvs) k =
      (lastWins kvs k).or (if kv.1 = k then some kv.2 else none) := by
  unfold lastWins
  rw [List.reverse_cons, List.find?_append]
  by_cases h : kv.1 = k
  · cases hf : List.find? (fun kv => decide (kv.1 = k)) kvs.reverse <;>
      simp [List.find?, h, hf, Option.or]
  · cases hf : List.find? (fun kv => decide (kv.1 = k)) kvs.reverse <;>
      simp [List.find?, h, hf, Option.or]

/-- Lookup after a bulk `dict.update`: the last pair wins, earlier dict
contents only surface for untouched keys. -/
theorem dictGet?_dictUpdate (kvs : List (String × String)) :
    ∀ (d : List (String × String)) (k : String),
      dictGet? (dictUpdate d kvs) k = (lastWins kvs k).or (dictGet? d k) := by
  induction kvs with
  | nil => intro d k; simp [dictUpdate, lastWins]
  | cons kv kvs ih =>
    intro d k
    rw [dictUpdate_cons, ih, lastWins_cons, dictGet?_dictSet]
    by_cases h : kv.1 = k
    · cases hl : lastWins kvs k <;> simp [h, hl, Option.or]
    · cases hl : lastWins kvs k <;> simp [h, hl, Option.or]

/-- Lookup in a fresh tag node's attribute dictionary is exactly the
last-write-wins reading of the start-tag attribute list. -/
theorem dictGet?_dictUpdate_nil (kvs : List (String × String)) (k : String) :
    dictGet? (dictUpdate [] kvs) k = lastWins kvs k := by
  rw [dictGet?_dictUpdate]
  simp [dictGet?]

/-! ## Invariant preservation -/

theorem AncOrSelf_congr {s1 s2 : ParserState}
    (hpar : ∀ j, parentOf s2 j = parentOf s1 j) {a b : Nat} :
    AncOrSelf s2 a b ↔ AncOrSelf s1 a b := by
  constructor
  · intro h
    induction h with
    | refl => exact AncOrSelf.refl _
    | step hp _ ih => exact AncOrSelf.step ((hpar _).symm.trans hp) ih
  · intro h
    induction h with
    | refl => exact AncOrSelf.refl _
    | step hp _ ih => exact AncOrSelf.step ((hpar _).trans hp) ih

theorem noAdjData_congr {s1 s2 : ParserState}
    (hdata : ∀ j, isDataB s2 j = isDataB s1 j) : ∀ l, noAdjData s2 l = noAdjData s1 l := by
  intro l
  induction l with
  | nil => rfl
  | cons x t ih =>
    cases t with
    | nil => rfl
    | cons y t2 =>
      show ((!(isDataB s2 x && isDataB s2 y)) && noAdjData s2 (y :: t2)) =
        ((!(isDataB s1 x && isDataB s1 y)) && noAdjData s1 (y :: t2))
      rw [hdata x, hdata y, ih]

/-- Preservation of the invariant by an update that only rewrites the
payload of one node's kind (same kind constructor, same parent, same
children): this covers data-buffer coalescing and declaration appends. -/
theorem wfp_kind_update {s : ParserState} (hw : WFP s) {i : Nat} {n n2 : HtmlNode}
    (hn : getNode? s i = some n)
    (hdoc : n2.isDoc = n.isDoc) (htag : n2.isTag = n.isTag) (hdata : n2.isData = n.isData)
    (hpar : n2.parent = n.parent) (hch : n2.childs = n.childs) :
    WFP ⟨s.nodes.set i n2, s.curr⟩ := by
  set s2 : ParserState := ⟨s.nodes.set i n2, s.curr⟩ with hs2
  have hlen : s2.nodes.length = s.nodes.length := by simp [hs2]
  have hilt : i < s.nodes.length := getNode?_lt_length hn
  have hget : ∀ j, getNode? s2 j = if j = i then some n2 else getNode? s j := by
    intro j
    by_cases hj : j = i
    · subst hj
      show (s.nodes.set j n2)[j]? = _
      simp [List.getElem?_set_self, List.getElem?_eq_getElem, hilt]
    · show (s.nodes.set i n2)[j]? = _
      rw [List.getElem?_set_ne (fun he => hj he.symm)]
      simp [hj, getNode?]
  have hparent : ∀ j, parentOf s2 j = parentOf s j := by
    intro j
    unfold parentOf
    rw [hget]
    by_cases hj : j = i
    · subst hj
      simp [hn, hpar]
    · simp [hj]
  have hchilds : ∀ j, childsOf s2 j = childsOf s j := by
    intro j
    unfold childsOf
    rw [hget]
    by_cases hj : j = i
    · subst hj
      simp [hn, hch]
    · simp [hj]
  have hisdoc : ∀ j, isDocB s2 j = isDocB s j := by
    intro j
    unfold isDocB
    rw [hget]
    by_cases hj : j = i
    · subst hj
      simp [hn, hdoc]
    · simp [hj]
  have histag : ∀ j, isTagB s2 j = isTagB s j := by
    intro j
    unfold isTagB
    rw [hget]
    by_cases hj : j = i
    · subst hj
      simp [hn, htag]
    · simp [hj]
  have hisdata : ∀ j, isDataB s2 j = isDataB s j := by
    intro j
    unfold isDataB
    rw [hget]
    by_cases hj : j = i
    · subst hj
      simp [hn, hdata]
    · simp [hj]
  have hiscont : ∀ j, isContainerB s2 j = isContainerB s j := by
    intro j
    unfold isContainerB
    rw [hisdoc, histag]
  refine ⟨?_, ?_, ?_, ?_, ?_, ?_, ?_, ?_, ?_, ?_, ?_, ?_⟩
  · rw [hlen]; exact hw.len_pos
  · rw [hparent]; exact hw.root_parent
  · rw [hisdoc]; exact hw.root_doc
  · intro j hj
    rw [hisdoc] at hj
    exact hw.doc_unique j hj
  · show s.curr < s2.nodes.length
    rw [hlen]; exact hw.curr_lt
  · intro j m hm c hc
    rw [hget] at hm
    rw [hlen]
    by_cases hj : j = i
    · subst hj
      rw [if_pos rfl] at hm
      cases hm
      rw [hch] at hc
      have := hw.child_parent j n hn c hc
      rw [hparent]
      exact this
    · rw [if_neg hj] at hm
      rw [hparent]
      exact hw.child_parent j m hm c hc
  · intro j m p hm hp
    rw [hget] at hm
    by_cases hj : j = i
    · subst hj
      rw [if_pos rfl] at hm
      cases hm
      rw [hpar] at hp
      obtain ⟨h1, h2⟩ := hw.parent_child j n p hn hp
      rw [hchilds, hiscont]
      exact ⟨h1, h2⟩
    · rw [if_neg hj] at hm
      obtain ⟨h1, h2⟩ := hw.parent_child j m p hm hp
      rw [hchilds, hiscont]
      exact ⟨h1, h2⟩
  · intro j m hm hj0
    rw [hget] at hm
    by_cases hj : j = i
    · subst hj
      rw [if_pos rfl] at hm
      cases hm
      rw [hpar]
      exact hw.parent_total j n hn hj0
    · rw [if_neg hj] at hm
      exact hw.parent_total j m hm hj0
  · intro j m hm
    rw [hget] at hm
    by_cases hj : j = i
    · subst hj
      rw [if_pos rfl] at hm
      cases hm
      rw [hch]
      exact hw.childs_nodup j n hn
    · rw [if_neg hj] at hm
      exact hw.childs_nodup j m hm
  · intro j m b hm hb
    rw [hget] at hm
    by_cases hj : j = i
    · subst hj
      rw [if_pos rfl] at hm
      cases hm
      rw [hch]
      have hdat : n.isData = true := by
        rw [← hdata]
        unfold HtmlNode.isData
        rw [hb]
      unfold HtmlNode.isData at hdat
      cases hk : n.kind with
      | data b2 => exact hw.data_leaf j n b2 hn hk
      | doc ds => rw [hk] at hdat; simp at hdat
      | tag nm at2 => rw [hk] at hdat; simp at hdat
    · rw [if_neg hj] at hm
      exact hw.data_leaf j m b hm hb
  · intro j m hm
    rw [hget] at hm
    rw [noAdjData_congr hisdata]
    by_cases hj : j = i
    · subst hj
      rw [if_pos rfl] at hm
      cases hm
      rw [hch]
      exact hw.no_adj j n hn
    · rw [if_neg hj] at hm
      exact hw.no_adj j m hm
  · intro j m d hm hlast hd
    rw [hget] at hm
    rw [hisdata] at hd
    have hcur : s2.curr = s.curr := rfl
    rw [hcur, AncOrSelf_congr hparent]
    by_cases hj : j = i
    · subst hj
      rw [if_pos rfl] at hm
      cases hm
      rw [hch] at hlast
      exact hw.last_data j n d hn hlast hd
    · rw [if_neg hj] at hm
      exact hw.last_data j m d hm hlast hd

theorem getLast?_mem_list : ∀ {l : List Nat} {a : Nat}, l.getLast? = some a → a ∈ l := by
  intro l
  induction l with
  | nil => intro a h; simp at h
  | cons x t ih =>
    intro a h
    cases t with
    | nil =>
      simp at h
      simp [h]
    | cons y t2 =>
      rw [List.getLast?_cons_cons] at h
      exact List.mem_cons_of_mem x (ih h)

theorem noAdjData_congr_mem {s1 s2 : ParserState} :
    ∀ l, (∀ j ∈ l, isDataB s2 j = isDataB s1 j) → noAdjData s2 l = noAdjData s1 l := by
  intro l
  induction l with
  | nil => intro _; rfl
  | cons x t ih =>
    intro h
    cases t with
    | nil => rfl
    | cons y t2 =>
      show ((!(isDataB s2 x && isDataB s2 y)) && noAdjData s2 (y :: t2)) =
        ((!(isDataB s1 x && isDataB s1 y)) && noAdjData s1 (y :: t2))
      rw [h x (by simp), h y (by simp), ih (fun j hj => h j (List.mem_cons_of_mem x hj))]

theorem noAdjData_append_single {s : ParserState} {l : List Nat} {x : Nat}
    (h1 : noAdjData s l = true)
    (h2 : ∀ y, l.getLast? = some y → (isDataB s y && isDataB s x) = false) :
    noAdjData s (l ++ [x]) = true := by
  induction l with
  | nil => rfl
  | cons a t ih =>
    cases t with
    | nil =>
      show ((!(isDataB s a && isDataB s x)) && noAdjData s [x]) = true
      rw [h2 a rfl]
      rfl
    | cons b t2 =>
      have h1a : (!(isDataB s a && isDataB s b)) = true := by
        have : ((!(isDataB s a && isDataB s b)) && noAdjData s (b :: t2)) = true := h1
        exact (Bool.and_eq_true_iff.mp this).1
      have h1b : noAdjData s (b :: t2) = true := by
        have : ((!(isDataB s a && isDataB s b)) && noAdjData s (b :: t2)) = true := h1
        exact (Bool.and_eq_true_iff.mp this).2
      have ih2 := ih h1b (fun y hy => h2 y (by rw [List.getLast?_cons_cons]; exact hy))
      show ((!(isDataB s a && isDataB s b)) && noAdjData s ((b :: t2) ++ [x])) = true
      rw [h1a, ih2]
      rfl

/-- Preservation of the invariant by the node-insertion step shared by
`_starttag_handle` and `_data_handle`: a fresh non-document node is
created under an insertion parent `p` lying on the cursor's chain,
appended to `p`'s children, and the cursor moves onto it. -/
theorem wfp_insert {s : ParserState} (hw : WFP s) {p : Nat} {κ : NodeKind}
    (hplen : p < s.nodes.length)
    (hpcont : isContainerB s p = true)
    (hanc : AncOrSelf s p s.curr)
    (hcurrdata : isDataB s s.curr = true → parentOf s s.curr = some p)
    (hκdoc : (HtmlNode.mk κ (some p) []).isDoc = false)
    (hκdata : (HtmlNode.mk κ (some p) []).isData = true → s.curr = p) :
    WFP ⟨listUpdate (s.nodes ++ [⟨κ, some p, []⟩]) p
          (fun n => { n with childs := n.childs ++ [s.nodes.length] }), s.nodes.length⟩ := by
  set len := s.nodes.length with hlendef
  set node : HtmlNode := ⟨κ, some p, []⟩ with hnodedef
  set s2 : ParserState :=
    ⟨listUpdate (s.nodes ++ [node]) p
      (fun n => { n with childs := n.childs ++ [len] }), len⟩ with hs2def
  obtain ⟨np, hnp⟩ := getNode?_of_lt hplen
  have hpne : p ≠ len := by omega
  have hlen2 : s2.nodes.length = len + 1 := by
    show (listUpdate (s.nodes ++ [node]) p _).length = len + 1
    rw [listUpdate_length, List.length_append]
    rfl
  have happ_p : (s.nodes ++ [node])[p]? = some np := by
    rw [List.getElem?_append_left hplen]
    exact hnp
  have hget : ∀ j, getNode? s2 j =
      if j = p then some { np with childs := np.childs ++ [len] }
      else if j = len then some node
      else getNode? s j := by
    intro j
    by_cases hjp : j = p
    · subst hjp
      rw [if_pos rfl]
      exact listUpdate_getElem?_self _ happ_p
    · rw [if_neg hjp]
      show (listUpdate (s.nodes ++ [node]) p _)[j]? = _
      rw [listUpdate_getElem?_ne _ hjp]
      by_cases hjl : j = len
      · subst hjl
        rw [if_pos rfl]
        exact List.getElem?_concat_length s.nodes node
      · rw [if_neg hjl]
        by_cases hlt : j < len
        · exact List.getElem?_append_left hlt
        · have h1 : (s.nodes ++ [node])[j]? = none := by
            apply List.getElem?_eq_none
            rw [List.length_append]
            show len + 1 ≤ j
            omega
          have h2 : getNode? s j = none := by
            apply List.getElem?_eq_none
            show len ≤ j
            omega
          rw [h1, h2]
  have hparent : ∀ j, parentOf s2 j = if j = len then some p else parentOf s j := by
    intro j
    unfold parentOf
    rw [hget]
    by_cases hjp : j = p
    · subst hjp
      simp [hpne, hnp]
    · by_cases hjl : j = len
      · subst hjl
        simp [hjp, hnodedef]
      · simp [hjp, hjl]
  have hchilds : ∀ j, childsOf s2 j =
      if j = p then childsOf s p ++ [len] else if j = len then [] else childsOf s j := by
    intro j
    unfold childsOf
    rw [hget]
    by_cases hjp : j = p
    · subst hjp
      simp [hnp]
    · by_cases hjl : j = len
      · subst hjl
        simp [hjp, hnodedef]
      · simp [hjp, hjl]
  have hisdoc : ∀ j, isDocB s2 j = if j = len then node.isDoc else isDocB s j := by
    intro j
    unfold isDocB
    rw [hget]
    by_cases hjp : j = p
    · subst hjp
      have : HtmlNode.isDoc { np with childs := np.childs ++ [len] } = np.isDoc := rfl
      simp [hpne, hnp, this]
    · by_cases hjl : j = len
      · subst hjl
        simp [hjp]
      · simp [hjp, hjl]
  have histag : ∀ j, isTagB s2 j = if j = len then node.isTag else isTagB s j := by
    intro j
    unfold isTagB
    rw [hget]
    by_cases hjp : j = p
    · subst hjp
      have : HtmlNode.isTag { np with childs := np.childs ++ [len] } = np.isTag := rfl
      simp [hpne, hnp, this]
    · by_cases hjl : j = len
      · subst hjl
        simp [hjp]
      · simp [hjp, hjl]
  have hisdata : ∀ j, isDataB s2 j = if j = len then node.isData else isDataB s j := by
    intro j
    unfold isDataB
    rw [hget]
    by_cases hjp : j = p
    · subst hjp
      have : HtmlNode.isData { np with childs := np.childs ++ [len] } = np.isData := rfl
      simp [hpne, hnp, this]
    · by_cases hjl : j = len
      · subst hjl
        simp [hjp]
      · simp [hjp, hjl]
  have hiscont : ∀ j, isContainerB s2 j = if j = len then (node.isDoc || node.isTag)
      else isContainerB s j := by
    intro j
    unfold isContainerB
    rw [hisdoc, histag]
    by_cases hjl : j = len <;> simp [hjl]
  have hanc_old : ∀ a b, AncOrSelf s2 a b → b < len → AncOrSelf s a b := by
    intro a b h
    induction h with
    | refl => intro _; exact AncOrSelf.refl _
    | @step q j hp h2 ih =>
      intro hblt
      rw [hparent] at hp
      rw [if_neg (by omega)] at hp
      have hq : q < j := parentOf_lt hw hp
      exact AncOrSelf.step hp (ih (by omega))
  have hanc_new : ∀ a b, AncOrSelf s a b → AncOrSelf s2 a b := by
    intro a b h
    induction h with
    | refl => exact AncOrSelf.refl _
    | @step q j hp h2 ih =>
      have hjlt : j < len := parentOf_lt_length hp
      have hp2 : parentOf s2 j = some q := by
        rw [hparent, if_neg (by omega)]
        exact hp
      exact AncOrSelf.step hp2 ih
  have hanc_top : ∀ a, AncOrSelf s2 a len → a = len ∨ AncOrSelf s2 a p := by
    intro a h
    cases h with
    | refl => exact Or.inl rfl
    | step hp h2 =>
      rw [hparent, if_pos rfl] at hp
      cases hp
      exact Or.inr h2
  refine ⟨?_, ?_, ?_, ?_, ?_, ?_, ?_, ?_, ?_, ?_, ?_, ?_⟩
  · rw [hlen2]; omega
  · show parentOf s2 0 = none
    rw [hparent, if_neg (by omega)]
    exact hw.root_parent
  · show isDocB s2 0 = true
    rw [hisdoc, if_neg (by omega)]
    exact hw.root_doc
  · intro i hi
    rw [hisdoc] at hi
    by_cases hil : i = len
    · rw [if_pos hil] at hi
      rw [hκdoc] at hi
      exact absurd hi (by simp)
    · rw [if_neg hil] at hi
      exact hw.doc_unique i hi
  · show s2.curr < s2.nodes.length
    rw [hlen2]
    show len < len + 1
    omega
  · intro i n hn j hj
    rw [hlen2]
    rw [hget] at hn
    by_cases hip : i = p
    · subst hip
      rw [if_pos rfl] at hn
      cases hn
      rcases List.mem_append.mp hj with hjold | hjnew
      · obtain ⟨h1, h2, h3⟩ := hw.child_parent i np hnp j hjold
        refine ⟨h1, by omega, ?_⟩
        rw [hparent, if_neg (by omega)]
        exact h3
      · have hj2 : j = len := by simpa using hjnew
        subst hj2
        refine ⟨by omega, by omega, ?_⟩
        rw [hparent, if_pos rfl]
    · rw [if_neg hip] at hn
      by_cases hil : i = len
      · subst hil
        rw [if_pos rfl] at hn
        cases hn
        simp [hnodedef] at hj
      · rw [if_neg hil] at hn
        obtain ⟨h1, h2, h3⟩ := hw.child_parent i n hn j hj
        refine ⟨h1, by omega, ?_⟩
        rw [hparent, if_neg (by omega)]
        exact h3
  · intro j n q hn hq
    rw [hget] at hn
    by_cases hjp : j = p
    · subst hjp
      rw [if_pos rfl] at hn
      cases hn
      have hq2 : np.parent = some q := hq
      obtain ⟨h1, h2⟩ := hw.parent_child j np q hnp hq2
      have hqlt : q < j := parentOf_lt hw (by simp [parentOf, hnp, hq2])
      have hqlen : q < len := by omega
      constructor
      · rw [hchilds, if_neg (by omega), if_neg (by omega)]
        exact h1
      · rw [hiscont, if_neg (by omega)]
        exact h2
    · by_cases hjl : j = len
      · subst hjl
        rw [if_neg hjp, if_pos rfl] at hn
        cases hn
        have hq2 : q = p := by
          have : node.parent = some p := rfl
          rw [this] at hq
          exact (Option.some_inj.mp hq).symm
        subst hq2
        constructor
        · rw [hchilds, if_pos rfl]
          exact List.mem_append_right _ (by simp)
        · rw [hiscont, if_neg hpne]
          exact hpcont
      · rw [if_neg hjp, if_neg hjl] at hn
        obtain ⟨h1, h2⟩ := hw.parent_child j n q hn hq
        have hqlt : q < j := parentOf_lt hw (by simp [parentOf, hn, hq])
        have hjlen : j < len := getNode?_lt_length hn
        constructor
        · rw [hchilds]
          by_cases hqp : q = p
          · subst hqp
            rw [if_pos rfl]
            exact List.mem_append_left _ h1
          · rw [if_neg hqp, if_neg (by omega)]
            exact h1
        · rw [hiscont, if_neg (by omega)]
          exact h2
  · intro j n hn hj0
    rw [hget] at hn
    by_cases hjp : j = p
    · subst hjp
      rw [if_pos rfl] at hn
      cases hn
      show np.parent ≠ none
      exact hw.parent_total j np hnp hj0
    · by_cases hjl : j = len
      · subst hjl
        rw [if_neg hjp, if_pos rfl] at hn
        cases hn
        show node.parent ≠ none
        simp [hnodedef]
      · rw [if_neg hjp, if_neg hjl] at hn
        exact hw.parent_total j n hn hj0
  · intro j n hn
    rw [hget] at hn
    by_cases hjp : j = p
    · subst hjp
      rw [if_pos rfl] at hn
      cases hn
      show (np.childs ++ [len]).Nodup
      have h1 : np.childs.Nodup := hw.childs_nodup j np hnp
      have h2 : len ∉ np.childs := by
        intro hmem
        obtain ⟨_, h3, _⟩ := hw.child_parent j np hnp len hmem
        omega
      simp [List.nodup_append, h1, h2]
    · by_cases hjl : j = len
      · subst hjl
        rw [if_neg hjp, if_pos rfl] at hn
        cases hn
        show (node.childs).Nodup
        simp [hnodedef]
      · rw [if_neg hjp, if_neg hjl] at hn
        exact hw.childs_nodup j n hn
  · intro j n b hn hb
    rw [hget] at hn
    by_cases hjp : j = p
    · subst hjp
      rw [if_pos rfl] at hn
      cases hn
      have hb2 : np.kind = NodeKind.data b := hb
      exfalso
      simp [isContainerB, isDocB, isTagB, HtmlNode.isDoc, HtmlNode.isTag, hnp, hb2] at hpcont
    · by_cases hjl : j = len
      · subst hjl
        rw [if_neg hjp, if_pos rfl] at hn
        cases hn
        rfl
      · rw [if_neg hjp, if_neg hjl] at hn
        exact hw.data_leaf j n b hn hb
  · intro j n hn
    rw [hget] at hn
    by_cases hjp : j = p
    · subst hjp
      rw [if_pos rfl] at hn
      cases hn
      show noAdjData s2 (np.childs ++ [len]) = true
      have hmem_eq : ∀ c ∈ np.childs, isDataB s2 c = isDataB s c := by
        intro c hc
        obtain ⟨_, hclt, _⟩ := hw.child_parent j np hnp c hc
        rw [hisdata, if_neg (by omega)]
      have hold : noAdjData s2 np.childs = noAdjData s np.childs := noAdjData_congr_mem _ hmem_eq
      apply noAdjData_append_single
      · rw [hold]
        exact hw.no_adj j np hnp
      · intro y hy
        have hymem : y ∈ np.childs := getLast?_mem_list hy
        obtain ⟨_, hylt, _⟩ := hw.child_parent j np hnp y hymem
        rw [hisdata, if_neg (by omega), hisdata, if_pos rfl]
        by_cases hnd : node.isData = true
        · have hcurr_p : s.curr = j := hκdata hnd
          by_cases hyd : isDataB s y = true
          · have := hw.last_data j np y hnp hy hyd
            rcases this with hcy | hnanc
            · rw [hcurr_p] at hcy
              obtain ⟨hlt, _, _⟩ := hw.child_parent j np hnp y hymem
              omega
            · exact absurd (by rw [hcurr_p]; exact AncOrSelf.refl j) hnanc
          · simp [Bool.eq_false_iff.mpr hyd]
        · simp [Bool.eq_false_iff.mpr hnd]
    · by_cases hjl : j = len
      · subst hjl
        rw [if_neg hjp, if_pos rfl] at hn
        cases hn
        rfl
      · rw [if_neg hjp, if_neg hjl] at hn
        have hjlen : j < len := getNode?_lt_length hn
        have hmem_eq : ∀ c ∈ n.childs, isDataB s2 c = isDataB s c := by
          intro c hc
          obtain ⟨_, hclt, _⟩ := hw.child_parent j n hn c hc
          rw [hisdata, if_neg (by omega)]
        rw [noAdjData_congr_mem _ hmem_eq]
        exact hw.no_adj j n hn
  · intro j n d hn hlast hd
    rw [hget] at hn
    by_cases hjp : j = p
    · subst hjp
      rw [if_pos rfl] at hn
      cases hn
      have hd2 : d = len := by
        have : (np.childs ++ [len]).getLast? = some len := List.getLast?_concat np.childs
        rw [this] at hlast
        exact (Option.some_inj.mp hlast).symm
      subst hd2
      exact Or.inl rfl
    · by_cases hjl : j = len
      · subst hjl
        rw [if_neg hjp, if_pos rfl] at hn
        cases hn
        simp [hnodedef] at hlast
      · rw [if_neg hjp, if_neg hjl] at hn
        have hjlen : j < len := getNode?_lt_length hn
        have hdmem : d ∈ n.childs := getLast?_mem_list hlast
        obtain ⟨_, hdlt, _⟩ := hw.child_parent j n hn d hdmem
        rw [hisdata, if_neg (by omega)] at hd
        right
        intro hancnew
        rcases hanc_top j hancnew with hjl2 | hjp2
        · omega
        · have hjp3 : AncOrSelf s j p := hanc_old j p hjp2 hplen
          rcases hw.last_data j n d hn hlast hd with hcd | hnanc
          · have hpard : parentOf s d = some j := by
              obtain ⟨_, _, h3⟩ := hw.child_parent j n hn d hdmem
              exact h3
            have hpard2 : parentOf s s.curr = some p := hcurrdata (by rw [hcd]; exact hd)
            rw [hcd] at hpard2
            rw [hpard] at hpard2
            have : j = p := Option.some_inj.mp hpard2
            exact hjp this
          · exact hnanc (AncOrSelf.trans hjp3 hanc)

theorem container_not_data {s : ParserState} {i : Nat}
    (h : isContainerB s i = true) : isDataB s i = false := by
  unfold isContainerB isDocB isTagB at h
  unfold isDataB
  cases hn : getNode? s i with
  | none => rfl
  | some n =>
    rw [hn] at h
    cases hk : n.kind <;>
      simp [HtmlNode.isDoc, HtmlNode.isTag, HtmlNode.isData, hk] at h ⊢

theorem exists_container_of_not_data {s : ParserState} {i : Nat} {n : HtmlNode}
    (hn : getNode? s i = some n) (hd : isDataB s i = false) : isContainerB s i = true := by
  unfold isDataB at hd
  unfold isContainerB isDocB isTagB
  rw [hn] at hd ⊢
  cases hk : n.kind <;>
    simp [HtmlNode.isDoc, HtmlNode.isTag, HtmlNode.isData, hk] at hd ⊢

/-- The invariant survives `_starttag_handle`. -/
theorem wfp_starttag {s : ParserState} (hw : WFP s) (tag : String)
    (attrs : List (String × String)) : WFP (starttag_handle s tag attrs) := by
  show WFP ⟨listUpdate (s.nodes ++ [⟨.tag tag (dictUpdate [] attrs),
      some (findParent s s.nodes.length s.curr), []⟩]) (findParent s s.nodes.length s.curr)
      (fun n => { n with childs := n.childs ++ [s.nodes.length] }), s.nodes.length⟩
  obtain ⟨hcont, hncont⟩ := findParent_spec hw hw.curr_lt
  by_cases hc : isContainerB s s.curr = true
  · rw [hcont hc]
    exact wfp_insert hw hw.curr_lt hc (AncOrSelf.refl _)
      (fun hd => absurd hd (by rw [container_not_data hc]; simp))
      rfl (fun hd => by simp [HtmlNode.isData] at hd)
  · replace hc : isContainerB s s.curr = false := by
      cases h : isContainerB s s.curr
      · rfl
      · exact absurd h hc
    obtain ⟨p, hp, hpc, heq⟩ := hncont hc
    rw [heq]
    exact wfp_insert hw (by have h1 := parentOf_lt hw hp; have h2 := hw.curr_lt; omega) hpc
      (AncOrSelf.step hp (AncOrSelf.refl p)) (fun _ => hp)
      rfl (fun hd => by simp [HtmlNode.isData] at hd)

/-- In the non-data branch, `_data_handle` reduces to the shared
insertion step. -/
theorem data_handle_insert {s : ParserState} {n : HtmlNode} (t : String)
    (hn : getNode? s s.curr = some n) (hnd : n.isData = false) :
    data_handle s t =
      ⟨listUpdate (s.nodes ++ [⟨.data t, some (findParent s s.nodes.length s.curr), []⟩])
        (findParent s s.nodes.length s.curr)
        (fun m => { m with childs := m.childs ++ [s.nodes.length] }), s.nodes.length⟩ := by
  unfold data_handle
  rw [hn]
  unfold HtmlNode.isData at hnd
  cases hk : n.kind with
  | data b => rw [hk] at hnd; simp at hnd
  | doc ds => simp only [hk]
  | tag nm at2 => simp only [hk]

/-- In the data branch, `_data_handle` coalesces into the buffer. -/
theorem data_handle_coalesce {s : ParserState} {n : HtmlNode} {buf : String} (t : String)
    (hn : getNode? s s.curr = some n) (hk : n.kind = .data buf) :
    data_handle s t = ⟨s.nodes.set s.curr { n with kind := .data (buf ++ t) }, s.curr⟩ := by
  unfold data_handle
  rw [hn]
  simp only [hk]

/-- The invariant survives `_data_handle`. -/
theorem wfp_data {s : ParserState} (hw : WFP s) (t : String) : WFP (data_handle s t) := by
  obtain ⟨n, hn⟩ := getNode?_of_lt hw.curr_lt
  cases hk : n.kind with
  | data buf =>
    rw [data_handle_coalesce t hn hk]
    exact wfp_kind_update hw hn (by simp [HtmlNode.isDoc, hk]) (by simp [HtmlNode.isTag, hk])
      (by simp [HtmlNode.isData, hk]) rfl rfl
  | doc ds =>
    have hcurrc : isContainerB s s.curr = true := by
      unfold isContainerB isDocB isTagB
      rw [hn]
      simp [HtmlNode.isDoc, hk]
    have heq : findParent s s.nodes.length s.curr = s.curr :=
      (findParent_spec hw hw.curr_lt).1 hcurrc
    rw [data_handle_insert t hn (by simp [HtmlNode.isData, hk]), heq]
    exact wfp_insert hw hw.curr_lt hcurrc (AncOrSelf.refl _)
      (fun hd => absurd hd (by rw [container_not_data hcurrc]; simp))
      rfl (fun _ => heq ▸ rfl)
  | tag nm at2 =>
    have hcurrc : isContainerB s s.curr = true := by
      unfold isContainerB isDocB isTagB
      rw [hn]
      simp [HtmlNode.isTag, hk]
    have heq : findParent s s.nodes.length s.curr = s.curr :=
      (findParent_spec hw hw.curr_lt).1 hcurrc
    rw [data_handle_insert t hn (by simp [HtmlNode.isData, hk]), heq]
    exact wfp_insert hw hw.curr_lt hcurrc (AncOrSelf.refl _)
      (fun hd => absurd hd (by rw [container_not_data hcurrc]; simp))
      rfl (fun _ => heq ▸ rfl)

/-- The end-tag search only returns tag nodes on the cursor's chain. -/
theorem findClosing_mem {s : ParserState} (tag : String) :
    ∀ fuel i c, findClosing s tag fuel i = some c →
      AncOrSelf s c i ∧ isTagNamedB s c tag = true := by
  intro fuel
  induction fuel with
  | zero => intro i c h; simp [findClosing] at h
  | succ f ih =>
    intro i c h
    rw [findClosing_succ] at h
    by_cases hdoc : isDocB s i = true
    · rw [if_pos hdoc] at h
      cases h
    · rw [if_neg hdoc] at h
      by_cases htag : isTagNamedB s i tag = true
      · rw [if_pos htag] at h
        cases h
        exact ⟨AncOrSelf.refl _, htag⟩
      · rw [if_neg htag] at h
        cases hp : parentOf s i with
        | none => rw [hp] at h; cases h
        | some p =>
          rw [hp] at h
          obtain ⟨h1, h2⟩ := ih p c h
          exact ⟨AncOrSelf.step hp h1, h2⟩

theorem AncOrSelf.parent_up {s : ParserState} {c b q : Nat}
    (h : AncOrSelf s c b) (hq : parentOf s c = some q) : AncOrSelf s q b := by
  induction h with
  | refl => exact AncOrSelf.step hq (AncOrSelf.refl q)
  | @step r j hp h2 ih => exact AncOrSelf.step hp ih

theorem isTagNamedB_not_data {s : ParserState} {c : Nat} {tag : String}
    (h : isTagNamedB s c tag = true) : isDataB s c = false := by
  unfold isTagNamedB at h
  unfold isDataB
  cases hn : getNode? s c with
  | none => rfl
  | some n =>
    rw [hn] at h
    cases hk : n.kind <;> simp [hk, HtmlNode.isData] at h ⊢

theorem isTagNamedB_ne_zero {s : ParserState} (hw : WFP s) {c : Nat} {tag : String}
    (h : isTagNamedB s c tag = true) : c ≠ 0 := by
  intro he
  subst he
  have hdoc := hw.root_doc
  unfold isTagNamedB at h
  unfold isDocB at hdoc
  cases hn : getNode? s 0 with
  | none => rw [hn] at h; cases h
  | some n =>
    rw [hn] at h hdoc
    cases hk : n.kind <;> simp [hk, HtmlNode.isDoc] at h hdoc

/-- The invariant survives `_endtag_handle`. -/
theorem wfp_endtag {s : ParserState} (hw : WFP s) (tag : String) :
    WFP (endtag_handle s tag) := by
  unfold endtag_handle
  cases hf : findClosing s tag s.nodes.length s.curr with
  | none => exact hw
  | some c =>
    obtain ⟨hanc_c, hnamed⟩ := findClosing_mem tag _ _ _ hf
    have hc0 : c ≠ 0 := isTagNamedB_ne_zero hw hnamed
    have hclen : c < s.nodes.length := by
      have := AncOrSelf.le hw hanc_c
      have := hw.curr_lt
      omega
    obtain ⟨nc, hnc⟩ := getNode?_of_lt hclen
    have hpne := hw.parent_total c nc hnc hc0
    cases hpp : nc.parent with
    | none => exact absurd hpp hpne
    | some p0 =>
      have hp0 : parentOf s c = some p0 := by simp [parentOf, hnc, hpp]
      have hp0lt : p0 < c := parentOf_lt hw hp0
      show WFP { s with curr := (parentOf s c).getD s.curr }
      rw [hp0]
      show WFP ⟨s.nodes, p0⟩
      set s2 : ParserState := ⟨s.nodes, p0⟩ with hs2
      have hpar_eq : ∀ j, parentOf s2 j = parentOf s j := fun _ => rfl
      have hdata_eq : ∀ j, isDataB s2 j = isDataB s j := fun _ => rfl
      refine ⟨hw.len_pos, hw.root_parent, hw.root_doc, hw.doc_unique, ?_,
        hw.child_parent, hw.parent_child, hw.parent_total, hw.childs_nodup,
        hw.data_leaf, ?_, ?_⟩
      · show p0 < s.nodes.length
        omega
      · intro i n hn
        rw [noAdjData_congr hdata_eq]
        exact hw.no_adj i n hn
      · intro i n d hn hlast hd
        show p0 = d ∨ ¬ AncOrSelf s2 i p0
        have hanc_eq : ∀ a b, AncOrSelf s2 a b ↔ AncOrSelf s a b :=
          fun a b => AncOrSelf_congr hpar_eq
        rcases hw.last_data i n d hn hlast hd with hcd | hnanc
        · right
          intro hip0
          rw [hanc_eq] at hip0
          have hcd2 : AncOrSelf s c d := by rw [← hcd]; exact hanc_c
          have hcned : c ≠ d := by
            intro he
            have h1 := isTagNamedB_not_data hnamed
            rw [he] at h1
            rw [hdata_eq] at hd
            rw [h1] at hd
            cases hd
          have hdmem : d ∈ n.childs := getLast?_mem_list hlast
          obtain ⟨_, _, hpard⟩ := hw.child_parent i n hn d hdmem
          obtain ⟨q, hq, hcq⟩ := AncOrSelf.shift hcd2 hcned
          rw [hpard] at hq
          cases hq
          have h1 : i ≤ p0 := AncOrSelf.le hw hip0
          have h2 : c ≤ i := AncOrSelf.le hw hcq
          omega
        · right
          intro hip0
          rw [hanc_eq] at hip0
          exact hnanc (AncOrSelf.trans hip0 (AncOrSelf.parent_up hanc_c hp0))

/-- The invariant survives `_decl_handle`. -/
theorem wfp_decl {s : ParserState} (hw : WFP s) (d : String) : WFP (decl_handle s d) := by
  unfold decl_handle
  obtain ⟨n0, hn0⟩ := getNode?_of_lt hw.len_pos
  have hdoc := hw.root_doc
  unfold isDocB at hdoc
  rw [hn0] at hdoc
  cases hk : n0.kind with
  | data b => simp [hk, HtmlNode.isDoc] at hdoc
  | tag nm at2 => simp [hk, HtmlNode.isDoc] at hdoc
  | doc ds =>
    have hset : listUpdate s.nodes 0 (fun n =>
        match n.kind with
        | .doc ds2 => { n with kind := .doc (ds2 ++ [d]) }
        | _ => n) = s.nodes.set 0 { n0 with kind := .doc (ds ++ [d]) } := by
      unfold listUpdate
      rw [show s.nodes[0]? = some n0 from hn0]
      show s.nodes.set 0
          (match n0.kind with
           | NodeKind.doc ds2 => { n0 with kind := NodeKind.doc (ds2 ++ [d]) }
           | _ => n0) = _
      rw [hk]
    rw [hset]
    exact wfp_kind_update hw hn0 (by simp [HtmlNode.isDoc, hk]) (by simp [HtmlNode.isTag, hk])
      (by simp [HtmlNode.isData, hk]) rfl rfl

/-- The invariant survives every event. -/
theorem wfp_processEvent {s : ParserState} (hw : WFP s) (e : HtmlEvent) :
    WFP (processEvent s e) := by
  cases e with
  | startTag tag attrs => exact wfp_starttag hw tag attrs
  | endTag tag => exact wfp_endtag hw tag
  | dataEv t => exact wfp_data hw t
  | entityRef en => exact wfp_data hw (resolveEntityRef en)
  | charRef cn => exact wfp_data hw (resolveCharRef cn)
  | declEv d => exact wfp_decl hw d

/-- The freshly constructed parser satisfies the invariant. -/
theorem wfp_initState : WFP initState := by
  have hget : ∀ i, getNode? initState i =
      if i = 0 then some ⟨.doc [], none, []⟩ else none := by
    intro i
    cases i with
    | zero => rfl
    | succ k => rfl
  refine ⟨by decide, rfl, rfl, ?_, by decide, ?_, ?_, ?_, ?_, ?_, ?_, ?_⟩
  · intro i hi
    by_cases h0 : i = 0
    · exact h0
    · unfold isDocB at hi
      rw [hget, if_neg h0] at hi
      cases hi
  · intro i n hn j hj
    rw [hget] at hn
    by_cases h0 : i = 0
    · subst h0
      rw [if_pos rfl] at hn
      cases hn
      simp at hj
    · rw [if_neg h0] at hn
      cases hn
  · intro j n p hn hp
    rw [hget] at hn
    by_cases h0 : j = 0
    · subst h0
      rw [if_pos rfl] at hn
      cases hn
      cases hp
    · rw [if_neg h0] at hn
      cases hn
  · intro j n hn hj0
    rw [hget] at hn
    by_cases h0 : j = 0
    · exact absurd h0 hj0
    · rw [if_neg h0] at hn
      cases hn
  · intro i n hn
    rw [hget] at hn
    by_cases h0 : i = 0
    · subst h0
      rw [if_pos rfl] at hn
      cases hn
      exact List.nodup_nil
    · rw [if_neg h0] at hn
      cases hn
  · intro i n b hn hb
    rw [hget] at hn
    by_cases h0 : i = 0
    · subst h0
      rw [if_pos rfl] at hn
      cases hn
      cases hb
    · rw [if_neg h0] at hn
      cases hn
  · intro i n hn
    rw [hget] at hn
    by_cases h0 : i = 0
    · subst h0
      rw [if_pos rfl] at hn
      cases hn
      rfl
    · rw [if_neg h0] at hn
      cases hn
  · intro i n d hn hlast hd
    rw [hget] at hn
    by_cases h0 : i = 0
    · subst h0
      rw [if_pos rfl] at hn
      cases hn
      cases hlast
    · rw [if_neg h0] at hn
      cases hn

/-- The invariant holds after processing any event sequence from the
fresh parser. -/
theorem wfp_processEvents (es : List HtmlEvent) : WFP (processEvents initState es) := by
  suffices h : ∀ s, WFP s → WFP (processEvents s es) from h initState wfp_initState
  induction es with
  | nil => intro s hw; exact hw
  | cons e t ih =>
    intro s hw
    exact ih (processEvent s e) (wfp_processEvent hw e)

/-! ## Traversal lemmas -/

theorem getAllNodesLoop_nil (s : ParserState) (d : Bool) :
    ∀ fuel, getAllNodesLoop s d fuel [] = [] := by
  intro fuel
  cases fuel with
  | zero => rfl
  | succ f => rfl

theorem nodeYield_false (s : ParserState) (i : Nat) : nodeYield s false i = [i] := rfl

theorem nodeNext_false (s : ParserState) (i : Nat) :
    nodeNext s false i = if isContainerB s i then childsOf s i else [] := rfl

theorem flatMap_nodeYield_false (s : ParserState) (lvl : List Nat) :
    lvl.flatMap (nodeYield s false) = lvl := by
  induction lvl with
  | nil => rfl
  | cons x t ih => simp [List.flatMap_cons, nodeYield_false, ih]

theorem flatMap_nodeNext_false (s : ParserState) (lvl : List Nat) :
    lvl.flatMap (nodeNext s false) = bfsExpand s lvl := rfl

/-- One level of the breadth-first loop: yield the level, then recurse on
its expansion. -/
theorem getAllNodesLoop_false_succ (s : ParserState) (fuel : Nat) (lvl : List Nat) :
    getAllNodesLoop s false (fuel + 1) lvl =
      lvl ++ getAllNodesLoop s false fuel (bfsExpand s lvl) := by
  rw [getAllNodesLoop_succ]
  rw [flatMap_nodeYield_false]
  rw [show lvl.flatMap (nodeNext s false) = bfsExpand s lvl from rfl]
  by_cases h : (bfsExpand s lvl).isEmpty
  · have h2 : bfsExpand s lvl = [] := List.isEmpty_iff.mp h
    rw [h2, getAllNodesLoop_nil]
    simp
  · simp only [h]
    simp

/-- The loop output is the concatenation of the iterated level
expansions. -/
theorem getAllNodesLoop_false_levels (s : ParserState) :
    ∀ (fuel : Nat) (lvl : List Nat),
      getAllNodesLoop s false fuel lvl =
        (List.range fuel).flatMap (fun k => (bfsExpand s)^[k] lvl) := by
  intro fuel
  induction fuel with
  | zero => intro lvl; rfl
  | succ f ih =>
    intro lvl
    rw [getAllNodesLoop_false_succ, ih]
    rw [List.range_succ_eq_map]
    rw [List.flatMap_cons]
    rw [List.flatMap_map]
    have hfun : (fun a => (bfsExpand s)^[a.succ] lvl) =
        (fun k => (bfsExpand s)^[k] (bfsExpand s lvl)) := by
      funext k
      simp [Function.iterate_succ_apply]
    rw [hfun]
    rfl

theorem isContainerB_exists {s : ParserState} {i : Nat}
    (h : isContainerB s i = true) : ∃ n, getNode? s i = some n := by
  unfold isContainerB isDocB isTagB at h
  cases hn : getNode? s i with
  | none => rw [hn] at h; cases h
  | some n => exact ⟨n, rfl⟩

theorem childsOf_facts {s : ParserState} (hw : StoreWF s) {i c : Nat}
    (h : c ∈ childsOf s i) : i < c ∧ c < s.nodes.length ∧ parentOf s c = some i := by
  rcases mem_childsOf.mp h with ⟨m, hm, hcm⟩
  exact hw.child_parent i m hm c hcm

theorem memSubtree_zero (s : ParserState) (r n : Nat) : memSubtree s 0 r n = false := rfl

theorem memSubtree_le {s : ParserState} (hw : StoreWF s) :
    ∀ fuel r n, memSubtree s fuel r n = true → r ≤ n := by
  intro fuel
  induction fuel with
  | zero => intro r n h; rw [memSubtree_zero] at h; cases h
  | succ f ih =>
    intro r n h
    rw [memSubtree_succ] at h
    rcases Bool.or_eq_true_iff.mp h with h1 | h2
    · have : r = n := by simpa using h1
      omega
    · obtain ⟨hcont, hany⟩ := Bool.and_eq_true_iff.mp h2
      obtain ⟨c, hc, hmc⟩ := List.any_eq_true.mp hany
      obtain ⟨hlt, _, _⟩ := childsOf_facts hw hc
      have := ih c n hmc
      omega

theorem memSubtree_refl (s : ParserState) (fuel r : Nat) :
    memSubtree s (fuel + 1) r r = true := by
  rw [memSubtree_succ]
  simp

theorem memSubtree_parent {s : ParserState} (hw : StoreWF s) :
    ∀ fuel c n, memSubtree s fuel c n = true → c ≠ n →
      ∃ p, parentOf s n = some p ∧ p < n ∧ memSubtree s fuel c p = true := by
  intro fuel
  induction fuel with
  | zero => intro c n h; rw [memSubtree_zero] at h; cases h
  | succ f ih =>
    intro c n h hne
    rw [memSubtree_succ] at h
    rcases Bool.or_eq_true_iff.mp h with h1 | h2
    · exact absurd (by simpa using h1) hne
    · obtain ⟨hcont, hany⟩ := Bool.and_eq_true_iff.mp h2
      obtain ⟨d, hd, hmd⟩ := List.any_eq_true.mp hany
      by_cases hdn : d = n
      · subst hdn
        obtain ⟨hlt, _, hpar⟩ := childsOf_facts hw hd
        exact ⟨c, hpar, hlt, memSubtree_refl s f c⟩
      · obtain ⟨p, hp, hplt, hmp⟩ := ih d n hmd hdn
        refine ⟨p, hp, hplt, ?_⟩
        rw [memSubtree_succ]
        apply Bool.or_eq_true_iff.mpr
        right
        apply Bool.and_eq_true_iff.mpr
        exact ⟨hcont, List.any_eq_true.mpr ⟨d, hd, hmp⟩⟩

theorem memSubtree_unique_child {s : ParserState} (hw : StoreWF s) :
    ∀ n i c1 c2 f1 f2, c1 ∈ childsOf s i → c2 ∈ childsOf s i →
      memSubtree s f1 c1 n = true → memSubtree s f2 c2 n = true → c1 = c2 := by
  intro n
  induction n using Nat.strong_induction_on with
  | _ n ih =>
    intro i c1 c2 f1 f2 hc1 hc2 hm1 hm2
    by_cases h1 : c1 = n
    · by_cases h2 : c2 = n
      · rw [h1, h2]
      · exfalso
        obtain ⟨p, hp, _, hmp⟩ := memSubtree_parent hw f2 c2 n hm2 h2
        subst h1
        obtain ⟨hlt, _, hpar⟩ := childsOf_facts hw hc1
        rw [hpar] at hp
        cases hp
        have := memSubtree_le hw f2 c2 i hmp
        obtain ⟨hlt2, _, _⟩ := childsOf_facts hw hc2
        omega
    · by_cases h2 : c2 = n
      · exfalso
        obtain ⟨p, hp, _, hmp⟩ := memSubtree_parent hw f1 c1 n hm1 h1
        subst h2
        obtain ⟨hlt, _, hpar⟩ := childsOf_facts hw hc2
        rw [hpar] at hp
        cases hp
        have := memSubtree_le hw f1 c1 i hmp
        obtain ⟨hlt2, _, _⟩ := childsOf_facts hw hc1
        omega
      · obtain ⟨p, hp, hplt, hmp1⟩ := memSubtree_parent hw f1 c1 n hm1 h1
        obtain ⟨p2, hp2, _, hmp2⟩ := memSubtree_parent hw f2 c2 n hm2 h2
        rw [hp] at hp2
        cases hp2
        exact ih p hplt i c1 c2 f1 f2 hc1 hc2 hmp1 hmp2

theorem countP_le_one_of_nodup {l : List Nat} {p : Nat → Bool} (hnd : l.Nodup)
    (huniq : ∀ a ∈ l, ∀ b ∈ l, p a = true → p b = true → a = b) : l.countP p ≤ 1 := by
  induction l with
  | nil => simp
  | cons a t ih =>
    rw [List.countP_cons]
    obtain ⟨hnota, hndt⟩ := List.nodup_cons.mp hnd
    by_cases hpa : p a = true
    · have ht0 : t.countP p = 0 := by
        apply List.countP_eq_zero.mpr
        intro b hb hpb
        have : a = b := huniq a (by simp) b (List.mem_cons_of_mem a hb) hpa hpb
        subst this
        exact hnota hb
      simp [ht0, hpa]
    · have := ih hndt (fun x hx y hy hpx hpy =>
        huniq x (List.mem_cons_of_mem a hx) y (List.mem_cons_of_mem a hy) hpx hpy)
      simp [hpa]
      omega

/-- Per-node count decomposition: a node's closed subtree contains a
target exactly once at the node itself or once below exactly one child. -/
theorem memSubtree_succ_count {s : ParserState} (hw : StoreWF s) (fuel r n : Nat) :
    (if memSubtree s (fuel + 1) r n then 1 else 0) =
      (if r = n then 1 else 0) +
        (nodeNext s false r).countP (fun c => memSubtree s fuel c n) := by
  rw [nodeNext_false]
  by_cases hcont : isContainerB s r = true
  · rw [if_pos hcont]
    by_cases hrn : r = n
    · subst hrn
      have h0 : (childsOf s r).countP (fun c => memSubtree s fuel c r) = 0 := by
        apply List.countP_eq_zero.mpr
        intro c hc hmc
        obtain ⟨hlt, _, _⟩ := childsOf_facts hw hc
        have := memSubtree_le hw fuel c r hmc
        omega
      rw [h0, memSubtree_refl]
      simp
    · rw [if_neg hrn]
      have hm : memSubtree s (fuel + 1) r n =
          (childsOf s r).any (fun c => memSubtree s fuel c n) := by
        rw [memSubtree_succ]
        simp [hrn, hcont]
      rw [hm]
      cases hany : (childsOf s r).any (fun c => memSubtree s fuel c n) with
      | false =>
        have h0 : (childsOf s r).countP (fun c => memSubtree s fuel c n) = 0 := by
          apply List.countP_eq_zero.mpr
          intro c hc hmc
          have h2 : (childsOf s r).any (fun c => memSubtree s fuel c n) = true :=
            List.any_eq_true.mpr ⟨c, hc, hmc⟩
          rw [hany] at h2
          cases h2
        rw [h0]
        simp
      | true =>
        obtain ⟨c, hc, hmc⟩ := List.any_eq_true.mp hany
        have hpos : 0 < (childsOf s r).countP (fun c => memSubtree s fuel c n) :=
          List.countP_pos_iff.mpr ⟨c, hc, hmc⟩
        have hnd : (childsOf s r).Nodup := by
          rcases mem_childsOf.mp hc with ⟨m, hm, _⟩
          have : childsOf s r = m.childs := by
            unfold childsOf
            rw [hm]
            rfl
          rw [this]
          exact hw.childs_nodup r m hm
        have hle : (childsOf s r).countP (fun c => memSubtree s fuel c n) ≤ 1 :=
          countP_le_one_of_nodup hnd (fun a ha b hb hpa hpb =>
            memSubtree_unique_child hw n r a b fuel fuel ha hb hpa hpb)
        show (1 : Nat) = 0 + (childsOf s r).countP (fun c => memSubtree s fuel c n)
        omega
  · replace hcont : isContainerB s r = false := by
      cases h : isContainerB s r
      · rfl
      · exact absurd h hcont
    rw [hcont]
    have hm : memSubtree s (fuel + 1) r n = decide (r = n) := by
      rw [memSubtree_succ, hcont]
      simp
    rw [hm]
    by_cases hrn : r = n <;> simp [hrn]

/-- Splitting the count over one breadth-first level. -/
theorem count_level_split {s : ParserState} (hw : StoreWF s) (fuel n : Nat) :
    ∀ lvl : List Nat,
      lvl.count n + (bfsExpand s lvl).countP (fun c => memSubtree s fuel c n) =
        lvl.countP (fun r => memSubtree s (fuel + 1) r n) := by
  intro lvl
  induction lvl with
  | nil => simp [bfsExpand]
  | cons r t ih =>
    have hexp : bfsExpand s (r :: t) = nodeNext s false r ++ bfsExpand s t := by
      unfold bfsExpand
      rw [List.flatMap_cons]
      rfl
    rw [hexp, List.countP_append, List.count_cons, List.countP_cons]
    have hsplit := memSubtree_succ_count hw fuel r n
    have hbeq : (if r == n then 1 else 0) = (if r = n then 1 else 0) := by
      by_cases h : r = n <;> simp [h]
    omega

/-- The count of each node in the breadth-first output equals the number
of level entries whose closed subtree contains it. -/
theorem getAllNodesLoop_count {s : ParserState} (hw : StoreWF s) :
    ∀ fuel (lvl : List Nat) (n : Nat),
      (getAllNodesLoop s false fuel lvl).count n =
        lvl.countP (fun r => memSubtree s fuel r n) := by
  intro fuel
  induction fuel with
  | zero =>
    intro lvl n
    rw [show getAllNodesLoop s false 0 lvl = [] from rfl]
    rw [show ([] : List Nat).count n = 0 from rfl]
    symm
    apply List.countP_eq_zero.mpr
    intro r _
    simp [memSubtree_zero]
  | succ f ih =>
    intro lvl n
    rw [getAllNodesLoop_false_succ, List.count_append, ih]
    exact count_level_split hw f n lvl

theorem memSubtree_subtree {s : ParserState} :
    ∀ fuel r n, memSubtree s fuel r n = true → SubtreeRel s r n := by
  intro fuel
  induction fuel with
  | zero => intro r n h; rw [memSubtree_zero] at h; cases h
  | succ f ih =>
    intro r n h
    rw [memSubtree_succ] at h
    rcases Bool.or_eq_true_iff.mp h with h1 | h2
    · have : r = n := by simpa using h1
      rw [this]
      exact SubtreeRel.refl n
    · obtain ⟨hcont, hany⟩ := Bool.and_eq_true_iff.mp h2
      obtain ⟨c, hc, hmc⟩ := List.any_eq_true.mp hany
      exact SubtreeRel.child hcont hc (ih c n hmc)

theorem subtree_memSubtree {s : ParserState} (hw : StoreWF s) {r n : Nat}
    (h : SubtreeRel s r n) :
    ∀ fuel, s.nodes.length - r < fuel → memSubtree s fuel r n = true := by
  induction h with
  | refl =>
    intro fuel hf
    cases fuel with
    | zero => omega
    | succ f => exact memSubtree_refl s f _
  | @child r2 c2 n2 hcont hc _ ih =>
    intro fuel hf
    obtain ⟨hrc, hclen, _⟩ := childsOf_facts hw hc
    cases fuel with
    | zero => omega
    | succ f =>
      rw [memSubtree_succ]
      apply Bool.or_eq_true_iff.mpr
      right
      apply Bool.and_eq_true_iff.mpr
      refine ⟨hcont, List.any_eq_true.mpr ⟨c2, hc, ih f (by omega)⟩⟩

/-- Fuel `s.nodes.length + 1` makes the boolean subtree test agree with
the inductive closed-subtree relation. -/
theorem memSubtree_iff_SubtreeRel {s : ParserState} (hw : StoreWF s) (r n : Nat) :
    memSubtree s (s.nodes.length + 1) r n = true ↔ SubtreeRel s r n :=
  ⟨memSubtree_subtree _ _ _, fun h => subtree_memSubtree hw h _ (by omega)⟩

/-- Counting version of the breadth-first traversal: each node is yielded
once for every root whose closed subtree contains it. -/
theorem get_all_nodes_count {s : ParserState} (hw : StoreWF s) (roots : List Nat) (n : Nat) :
    (get_all_nodes s roots false).count n =
      roots.countP (fun r => memSubtree s (s.nodes.length + 1) r n) :=
  getAllNodesLoop_count hw (s.nodes.length + 1) roots n

/-! ## Text coalescing -/

theorem set_concat (l : List HtmlNode) (a b : HtmlNode) :
    (l ++ [a]).set l.length b = l ++ [b] := by
  simp [List.set_append_right]

/-- Two consecutive data events starting from a non-data cursor equal one
combined data event: the first inserts a fresh data node and moves the
cursor onto it, the second coalesces into its buffer. -/
theorem insert_then_data {s : ParserState} {n : HtmlNode} (a b : String)
    (hn : getNode? s s.curr = some n) (hnd : n.isData = false) :
    data_handle (data_handle s a) b = data_handle s (a ++ b) := by
  rw [data_handle_insert a hn hnd, data_handle_insert (a ++ b) hn hnd]
  set len := s.nodes.length with hlen
  set f : HtmlNode → HtmlNode := fun m => { m with childs := m.childs ++ [len] } with hf
  set A : HtmlNode := ⟨.data a, some (findParent s len s.curr), []⟩ with hA
  set A2 : HtmlNode := ⟨.data (a ++ b), some (findParent s len s.curr), []⟩ with hA2
  set p := findParent s len s.curr with hp
  set s1 : ParserState := ⟨listUpdate (s.nodes ++ [A]) p f, len⟩ with hs1
  by_cases hpl : p = len
  · have happ : (s.nodes ++ [A])[p]? = some A := by
      rw [hpl]
      exact List.getElem?_concat_length s.nodes A
    have hnodes1 : s1.nodes = (s.nodes ++ [A]).set p (f A) := by
      show listUpdate (s.nodes ++ [A]) p f = _
      unfold listUpdate
      rw [happ]
    have hg1 : getNode? s1 len = some (f A) := by
      show s1.nodes[len]? = _
      rw [hnodes1, hpl]
      have hlt : len < (s.nodes ++ [A]).length := by
        rw [List.length_append]
        simp [hlen]
      simp [List.getElem?_set_self, List.getElem?_eq_getElem, hlt]
    have hkA : (f A).kind = NodeKind.data a := rfl
    rw [data_handle_coalesce b hg1 hkA]
    show (⟨s1.nodes.set len { f A with kind := NodeKind.data (a ++ b) }, len⟩ : ParserState) = _
    have happ2 : (s.nodes ++ [A2])[p]? = some A2 := by
      rw [hpl]
      exact List.getElem?_concat_length s.nodes A2
    have hrhs : listUpdate (s.nodes ++ [A2]) p f = (s.nodes ++ [A2]).set p (f A2) := by
      unfold listUpdate
      rw [happ2]
    rw [hrhs]
    congr 1
    rw [hnodes1, hpl, List.set_set]
    rw [set_concat, set_concat]
  · have happA : (s.nodes ++ [A])[len]? = some A := List.getElem?_concat_length s.nodes A
    have hg1 : getNode? s1 len = some A := by
      show (listUpdate (s.nodes ++ [A]) p f)[len]? = some A
      rw [listUpdate_getElem?_ne f (fun he => hpl he.symm), happA]
    have hkA : A.kind = NodeKind.data a := rfl
    rw [data_handle_coalesce b hg1 hkA]
    show (⟨s1.nodes.set len { A with kind := NodeKind.data (a ++ b) }, len⟩ : ParserState) = _
    have hAA2 : ({ A with kind := NodeKind.data (a ++ b) } : HtmlNode) = A2 := rfl
    rw [hAA2]
    congr 1
    by_cases hplt : p < len
    · obtain ⟨np, hnp⟩ : ∃ np, s.nodes[p]? = some np := by
        have : p < s.nodes.length := hplt
        rcases List.getElem?_eq_some_iff.mpr ⟨this, rfl⟩ with h2
        exact ⟨_, h2⟩
      have happ_p : (s.nodes ++ [A])[p]? = some np := by
        rw [List.getElem?_append_left hplt]
        exact hnp
      have happ_p2 : (s.nodes ++ [A2])[p]? = some np := by
        rw [List.getElem?_append_left hplt]
        exact hnp
      have hnodes1 : s1.nodes = (s.nodes ++ [A]).set p (f np) := by
        show listUpdate (s.nodes ++ [A]) p f = _
        unfold listUpdate
        rw [happ_p]
      have hrhs : listUpdate (s.nodes ++ [A2]) p f = (s.nodes ++ [A2]).set p (f np) := by
        unfold listUpdate
        rw [happ_p2]
      rw [hnodes1, hrhs]
      rw [List.set_comm _ _ _ hpl]
      rw [set_concat]
    · have hgt : len < p := by omega
      have hnone : (s.nodes ++ [A])[p]? = none := by
        apply List.getElem?_eq_none
        rw [List.length_append]
        show len + 1 ≤ p
        omega
      have hnone2 : (s.nodes ++ [A2])[p]? = none := by
        apply List.getElem?_eq_none
        rw [List.length_append]
        show len + 1 ≤ p
        omega
      have hnodes1 : s1.nodes = s.nodes ++ [A] := by
        show listUpdate (s.nodes ++ [A]) p f = _
        unfold listUpdate
        rw [hnone]
      have hrhs : listUpdate (s.nodes ++ [A2]) p f = s.nodes ++ [A2] := by
        unfold listUpdate
        rw [hnone2]
      rw [hnodes1, hrhs, set_concat]

/-- Fusion of consecutive data events: feeding text `a` then text `b`
produces exactly the state of feeding `a ++ b`. -/
theorem data_handle_fuse (s : ParserState) (a b : String) :
    data_handle (data_handle s a) b = data_handle s (a ++ b) := by
  cases hn : getNode? s s.curr with
  | none =>
    have h1 : ∀ t, data_handle s t = s := by
      intro t
      unfold data_handle
      rw [hn]
    rw [h1 a, h1 b, h1 (a ++ b)]
  | some n =>
    cases hk : n.kind with
    | data buf =>
      rw [data_handle_coalesce a hn hk]
      set n2 : HtmlNode := { n with kind := NodeKind.data (buf ++ a) } with hn2
      set s1 : ParserState := ⟨s.nodes.set s.curr n2, s.curr⟩ with hs1
      have hcurrlt : s.curr < s.nodes.length := getNode?_lt_length hn
      have hg1 : getNode? s1 s.curr = some n2 := by
        show (s.nodes.set s.curr n2)[s.curr]? = some n2
        simp [List.getElem?_set_self, List.getElem?_eq_getElem, hcurrlt]
      have hk2 : n2.kind = NodeKind.data (buf ++ a) := rfl
      rw [data_handle_coalesce b hg1 hk2]
      rw [data_handle_coalesce (a ++ b) hn hk]
      show (⟨s1.nodes.set s.curr { n2 with kind := NodeKind.data (buf ++ a ++ b) },
        s.curr⟩ : ParserState) = _
      congr 1
      show (s.nodes.set s.curr n2).set s.curr _ = _
      rw [List.set_set]
      rw [String.append_assoc]
    | doc ds => exact insert_then_data a b hn (by simp [HtmlNode.isData, hk])
    | tag nm at2 => exact insert_then_data a b hn (by simp [HtmlNode.isData, hk])

/-! ## Direct-children mode and disjoint root lists -/

theorem countP_le_one_of_pairwise {l : List Nat} {p : Nat → Bool} {R : Nat → Nat → Prop}
    (hpw : l.Pairwise R) (h : ∀ a b, R a b → ¬(p a = true ∧ p b = true)) :
    l.countP p ≤ 1 := by
  induction l with
  | nil => simp
  | cons a t ih =>
    rw [List.countP_cons]
    obtain ⟨hra, hpwt⟩ := List.pairwise_cons.mp hpw
    by_cases hpa : p a = true
    · have ht0 : t.countP p = 0 := by
        apply List.countP_eq_zero.mpr
        intro b hb hpb
        exact h a b (hra b hb) ⟨hpa, hpb⟩
      simp [ht0, hpa]
    · have := ih hpwt
      simp [hpa]
      omega

/-- In `direct_only` mode the generator emits exactly the concatenated
child lists of the container roots and stops after the first sweep. -/
theorem get_all_nodes_direct (s : ParserState) (roots : List Nat) :
    get_all_nodes s roots true =
      roots.flatMap (fun r => if isContainerB s r then childsOf s r else []) := by
  unfold get_all_nodes
  rw [getAllNodesLoop_succ]
  have hnext : roots.flatMap (nodeNext s true) = [] := by
    induction roots with
    | nil => rfl
    | cons r t ih => simp [List.flatMap_cons, nodeNext, ih]
  simp only [hnext]
  have hyield : roots.flatMap (nodeYield s true) =
      roots.flatMap (fun r => if isContainerB s r then childsOf s r else []) := rfl
  rw [hyield]
  simp

/-- Under a well-formed store, a yielded direct child determines its root
uniquely, so with pairwise-disjoint root subtrees no root and no deeper
descendant is ever yielded. -/
theorem get_all_nodes_direct_shallow {s : ParserState} (hw : StoreWF s)
    {roots : List Nat}
    (hdisj : roots.Pairwise (fun r1 r2 => ∀ m, ¬(SubtreeRel s r1 m ∧ SubtreeRel s r2 m))) :
    (∀ n ∈ get_all_nodes s roots true, n ∉ roots) ∧
    (∀ r ∈ roots, ∀ c ∈ childsOf s r, ∀ m, SubtreeRel s c m → m ≠ c →
      m ∉ get_all_nodes s roots true) := by
  have hmem : ∀ n, n ∈ get_all_nodes s roots true →
      ∃ r ∈ roots, isContainerB s r = true ∧ n ∈ childsOf s r := by
    intro n hn
    rw [get_all_nodes_direct] at hn
    rcases List.mem_flatMap.mp hn with ⟨r, hr, hnr⟩
    by_cases hc : isContainerB s r = true
    · rw [if_pos hc] at hnr
      exact ⟨r, hr, hc, hnr⟩
    · rw [if_neg hc] at hnr
      cases hnr
  have hsym : Symmetric (fun r1 r2 => ∀ m, ¬(SubtreeRel s r1 m ∧ SubtreeRel s r2 m)) :=
    fun a b h m2 hm2 => h m2 ⟨hm2.2, hm2.1⟩
  have hdisj2 : ∀ r1 ∈ roots, ∀ r2 ∈ roots, r1 ≠ r2 →
      ∀ m, ¬(SubtreeRel s r1 m ∧ SubtreeRel s r2 m) := by
    intro r1 h1 r2 h2 hne m hm
    exact hdisj.forall hsym h1 h2 hne m hm
  constructor
  · intro n hn hnroot
    obtain ⟨r, hr, hc, hnc⟩ := hmem n hn
    obtain ⟨hrlt, _, _⟩ := childsOf_facts hw hnc
    have hrn : r ≠ n := by omega
    have hs1 : SubtreeRel s r n := SubtreeRel.child hc hnc (SubtreeRel.refl n)
    have hs2 : SubtreeRel s n n := SubtreeRel.refl n
    exact hdisj2 r hr n hnroot hrn n ⟨hs1, hs2⟩
  · intro r hr c hc m hsub hmc hmem2
    obtain ⟨r2, hr2, hc2, hmc2⟩ := hmem m hmem2
    by_cases hrr : r = r2
    · subst hrr
      have h1 : memSubtree s (s.nodes.length + 1) c m = true :=
        (memSubtree_iff_SubtreeRel hw c m).mpr hsub
      have h2 : memSubtree s (s.nodes.length + 1) m m = true :=
        (memSubtree_iff_SubtreeRel hw m m).mpr (SubtreeRel.refl m)
      have := memSubtree_unique_child hw m r c m _ _ hc hmc2 h1 h2
      exact hmc this.symm
    · have hcontr : isContainerB s r = true := by
        rcases mem_childsOf.mp hc with ⟨mm, hmm, hcm⟩
        apply exists_container_of_not_data hmm
        cases hdm : isDataB s r with
        | false => rfl
        | true =>
          exfalso
          unfold isDataB at hdm
          rw [hmm] at hdm
          unfold HtmlNode.isData at hdm
          cases hkm : mm.kind with
          | data bm =>
            have := hw.data_childs r mm bm hmm hkm
            rw [this] at hcm
            cases hcm
          | doc ds => simp [hkm] at hdm
          | tag nm at2 => simp [hkm] at hdm
      have hs1 : SubtreeRel s r m := SubtreeRel.child hcontr hc hsub
      have hs2 : SubtreeRel s r2 m := SubtreeRel.child hc2 hmc2 (SubtreeRel.refl m)
      exact hdisj2 r hr r2 hr2 hrr m ⟨hs1, hs2⟩

/-! ## Printer lemmas -/

theorem print_node_succ (s : ParserState) (fuel i level : Nat) :
    print_node s (fuel + 1) i level = printNodeStep s (print_node s fuel) i level := rfl

theorem mapM_isSome {g : Nat → Option (List String)} :
    ∀ l : List Nat, (∀ c ∈ l, (g c).isSome = true) → (l.mapM g).isSome = true := by
  intro l
  induction l with
  | nil => intro _; rfl
  | cons c t ih =>
    intro h
    rw [List.mapM_cons]
    have hc : (g c).isSome = true := h c (by simp)
    cases hgc : g c with
    | none => rw [hgc] at hc; cases hc
    | some v =>
      have ht : (t.mapM g).isSome = true := ih (fun x hx => h x (List.mem_cons_of_mem c hx))
      cases hgt : t.mapM g with
      | none => rw [hgt] at ht; cases ht
      | some vs => simp [hgc, hgt]

/-- The depth ceiling makes the printer total: any recursion budget
exceeding `100 - level` suffices, whatever the store contains. -/
theorem print_node_total (s : ParserState) :
    ∀ fuel i level, 100 - level < fuel → (print_node s fuel i level).isSome = true := by
  intro fuel
  induction fuel with
  | zero => intro i level h; omega
  | succ f ih =>
    intro i level h
    rw [print_node_succ]
    unfold printNodeStep
    by_cases hlev : 100 ≤ level
    · rw [if_pos hlev]
      rfl
    · rw [if_neg hlev]
      have hrec : ∀ c, (print_node s f c (level + 1)).isSome = true := by
        intro c
        apply ih
        omega
      cases hn : getNode? s i with
      | none => rfl
      | some n =>
        cases hk : n.kind with
        | data buf => simp [hk]
        | doc ds =>
          have hm : (n.childs.mapM (fun c => print_node s f c (level + 1))).isSome = true :=
            mapM_isSome n.childs (fun c _ => hrec c)
          simp only [hk]
          cases hmm : n.childs.mapM (fun c => print_node s f c (level + 1)) with
          | none => rw [hmm] at hm; cases hm
          | some vs => simp [hmm]
        | tag nm at2 =>
          have hm : (n.childs.mapM (fun c => print_node s f c (level + 1))).isSome = true :=
            mapM_isSome n.childs (fun c _ => hrec c)
          simp only [hk]
          cases hmm : n.childs.mapM (fun c => print_node s f c (level + 1)) with
          | none => rw [hmm] at hm; cases hm
          | some vs => simp [hmm]

/-- At the ceiling the printer emits exactly the bounded diagnostic. -/
theorem print_node_ceiling (s : ParserState) (fuel i level : Nat) (h : 100 ≤ level) :
    print_node s (fuel + 1) i level =
      some [indentStr (level * 2) ++ "Error: level too big"] := by
  rw [print_node_succ]
  unfold printNodeStep
  rw [if_pos h]

/-! ## Filter characterisation -/

/-- The source's `check_filter`, read as a predicate: an element node,
name equality when requested, exact attribute matches, and space-token
membership for the `in_attrs` constraints. -/
theorem check_filter_iff (s : ParserState) (tagName : Option String)
    (attrs in_attrs : List (String × String)) (i : Nat) :
    check_filter s tagName attrs in_attrs i = true ↔
      ∃ n nm nattrs, getNode? s i = some n ∧ n.kind = NodeKind.tag nm nattrs ∧
        (∀ w, tagName = some w → w = nm) ∧
        (∀ kv ∈ attrs, dictGet? nattrs kv.1 = some kv.2) ∧
        (∀ kv ∈ in_attrs, ∃ v, dictGet? nattrs kv.1 = some v ∧ kv.2 ∈ splitSpaces v) := by
  unfold check_filter
  cases hn : getNode? s i with
  | none =>
    simp only [Bool.false_eq_true, false_iff]
    rintro ⟨n, nm, nattrs, hn2, _⟩
    cases hn2
  | some n =>
    cases hk : n.kind with
    | doc ds =>
      simp only [hk]
      simp only [Bool.false_eq_true, false_iff]
      rintro ⟨n2, nm, nattrs, hn2, hk2, _⟩
      cases hn2
      rw [hk] at hk2
      cases hk2
    | data buf =>
      simp only [hk]
      simp only [Bool.false_eq_true, false_iff]
      rintro ⟨n2, nm, nattrs, hn2, hk2, _⟩
      cases hn2
      rw [hk] at hk2
      cases hk2
    | tag nm nattrs =>
      simp only [hk]
      constructor
      · intro h
        obtain ⟨h12, h3⟩ := Bool.and_eq_true_iff.mp h
        obtain ⟨h1, h2⟩ := Bool.and_eq_true_iff.mp h12
        refine ⟨n, nm, nattrs, rfl, hk, ?_, ?_, ?_⟩
        · intro w hw
          rw [hw] at h1
          simpa using h1
        · intro kv hkv
          have := List.all_eq_true.mp h2 kv hkv
          cases hg : dictGet? nattrs kv.1 with
          | none => rw [hg] at this; cases this
          | some v =>
            rw [hg] at this
            have h5 : v = kv.2 := by simpa using this
            rw [h5]
        · intro kv hkv
          have := List.all_eq_true.mp h3 kv hkv
          cases hg : dictGet? nattrs kv.1 with
          | none => rw [hg] at this; cases this
          | some v =>
            rw [hg] at this
            refine ⟨v, rfl, ?_⟩
            have h4 : (splitSpaces v).contains kv.2 = true := by simpa using this
            simpa using h4
      · rintro ⟨n2, nm2, nattrs2, hn2, hk2, hname, hattrs, hin⟩
        cases hn2
        rw [hk] at hk2
        cases hk2
        apply Bool.and_eq_true_iff.mpr
        constructor
        · apply Bool.and_eq_true_iff.mpr
          constructor
          · cases tagName with
            | none => rfl
            | some w => simpa using hname w rfl
          · apply List.all_eq_true.mpr
            intro kv hkv
            rw [hattrs kv hkv]
            simp
        · apply List.all_eq_true.mpr
          intro kv hkv
          obtain ⟨v, hv, hmem⟩ := hin kv hkv
          rw [hv]
          simpa using hmem

/-! ## Remaining helper lemmas -/

theorem lookup_mem : ∀ {l : List (String × Nat)} {a : String} {b : Nat},
    l.lookup a = some b → (a, b) ∈ l := by
  intro l
  induction l with
  | nil => intro a b h; simp [List.lookup] at h
  | cons kv t ih =>
    intro a b h
    rw [List.lookup_cons] at h
    cases hk : a == kv.1 with
    | true =>
      rw [hk] at h
      have h1 : kv.2 = b := Option.some_inj.mp h
      have h2 : a = kv.1 := by simpa using hk
      rw [h2, ← h1]
      exact List.mem_cons.mpr (Or.inl rfl)
    | false =>
      rw [hk] at h
      exact List.mem_cons_of_mem kv (ih h)

/-- Shape of the state after `_starttag_handle` (insertion parent inside
the store): one fresh tag node at id `length`, appended to the parent's
child list, everything else untouched, cursor on the fresh node. -/
theorem starttag_state (s : ParserState) (tag : String) (attrs : List (String × String))
    (hplen : findParent s s.nodes.length s.curr < s.nodes.length) :
    (starttag_handle s tag attrs).nodes.length = s.nodes.length + 1 ∧
    getNode? (starttag_handle s tag attrs) s.nodes.length =
      some ⟨.tag tag (dictUpdate [] attrs), some (findParent s s.nodes.length s.curr), []⟩ ∧
    childsOf (starttag_handle s tag attrs) (findParent s s.nodes.length s.curr) =
      childsOf s (findParent s s.nodes.length s.curr) ++ [s.nodes.length] ∧
    (∀ j, j ≠ findParent s s.nodes.length s.curr → j ≠ s.nodes.length →
      getNode? (starttag_handle s tag attrs) j = getNode? s j) ∧
    (starttag_handle s tag attrs).curr = s.nodes.length := by
  set len := s.nodes.length with hlendef
  set p := findParent s len s.curr with hpdef
  set node : HtmlNode := ⟨.tag tag (dictUpdate [] attrs), some p, []⟩ with hnodedef
  obtain ⟨np, hnp⟩ := getNode?_of_lt hplen
  have hpne : p ≠ len := by omega
  have happ_p : (s.nodes ++ [node])[p]? = some np := by
    rw [List.getElem?_append_left hplen]
    exact hnp
  refine ⟨?_, ?_, ?_, ?_, rfl⟩
  · show (listUpdate (s.nodes ++ [node]) p _).length = len + 1
    rw [listUpdate_length, List.length_append]
    rfl
  · show (listUpdate (s.nodes ++ [node]) p _)[len]? = some node
    rw [listUpdate_getElem?_ne _ (fun he => hpne he.symm)]
    exact List.getElem?_concat_length s.nodes node
  · unfold childsOf
    have hgp : (listUpdate (s.nodes ++ [node]) p
        (fun n => { n with childs := n.childs ++ [len] }))[p]? =
        some { np with childs := np.childs ++ [len] } :=
      listUpdate_getElem?_self _ happ_p
    show ((Option.map _ ((listUpdate (s.nodes ++ [node]) p _)[p]?)).getD []) = _
    rw [hgp]
    show np.childs ++ [len] = ((Option.map (fun n => n.childs) (getNode? s p)).getD []) ++ [len]
    rw [show getNode? s p = some np from hnp]
    rfl
  · intro j hjp hjl
    show (listUpdate (s.nodes ++ [node]) p _)[j]? = getNode? s j
    rw [listUpdate_getElem?_ne _ hjp]
    by_cases hlt : j < len
    · exact List.getElem?_append_left hlt
    · have h1 : (s.nodes ++ [node])[j]? = none := by
        apply List.getElem?_eq_none
        rw [List.length_append]
        show len + 1 ≤ j
        omega
      have h2 : getNode? s j = none := by
        apply List.getElem?_eq_none
        show len ≤ j
        omega
      rw [h1, h2]

/-- Every stored node is reachable from the document root. -/
theorem wfp_root_reach {s : ParserState} (hw : WFP s) :
    ∀ j, j < s.nodes.length → AncOrSelf s 0 j := by
  intro j
  induction j using Nat.strong_induction_on with
  | _ j ih =>
    intro hj
    by_cases hj0 : j = 0
    · rw [hj0]
      exact AncOrSelf.refl 0
    · obtain ⟨n, hn⟩ := getNode?_of_lt hj
      have hpne := hw.parent_total j n hn hj0
      cases hp : n.parent with
      | none => exact absurd hp hpne
      | some p =>
        have hp2 : parentOf s j = some p := by simp [parentOf, hn, hp]
        have hplt : p < j := parentOf_lt hw hp2
        exact AncOrSelf.step hp2 (ih p hplt (by omega))

set_option maxRecDepth 8000 in
/-- All entity-table codepoints are valid `chr` arguments. -/
theorem name2codepoint_bound :
    name2codepoint.all (fun kv => kv.2 ≤ 1114111) = true := by decide

/-- The unique-parent consequence of the invariant. -/
theorem wfp_unique_parent {s : ParserState} (hw : WFP s) {j : Nat}
    (hj0 : 0 < j) (hjlen : j < s.nodes.length) :
    ∃ p, parentOf s j = some p ∧ p < j ∧ (childsOf s p).count j = 1 ∧
      (∀ i, j ∈ childsOf s i → i = p) := by
  obtain ⟨n, hn⟩ := getNode?_of_lt hjlen
  have hpne := hw.parent_total j n hn (by omega)
  cases hp : n.parent with
  | none => exact absurd hp hpne
  | some p =>
    have hp2 : parentOf s j = some p := by simp [parentOf, hn, hp]
    obtain ⟨hmem, _⟩ := hw.parent_child j n p hn hp
    refine ⟨p, hp2, parentOf_lt hw hp2, ?_, ?_⟩
    · rcases mem_childsOf.mp hmem with ⟨m, hm, hjm⟩
      have hnd := hw.childs_nodup p m hm
      have : childsOf s p = m.childs := by
        unfold childsOf
        rw [hm]
        rfl
      rw [this]
      exact List.count_eq_one_of_mem hnd hjm
    · intro i hji
      obtain ⟨_, _, hpar⟩ := childsOf_facts hw.toStoreWF hji
      rw [hp2] at hpar
      exact (Option.some_inj.mp hpar).symm

/-! ## Claim theorems -/

/-- C1: for every well-formed builder state and every end-tag event, if
the cursor's ancestor chain contains, before reaching the document node,
a tag node carrying the event's name, then the event sets the cursor to
the parent of the nearest such node and changes nothing else; otherwise
the event is a no-op (cursor and tree unchanged, no error). -/
theorem c1_endtag_nearest_or_noop {s : ParserState} (hw : WFP s) (tag : String) :
    match ((ancChain s s.nodes.length s.curr).takeWhile (fun j => !(isDocB s j))).find?
        (fun j => isTagNamedB s j tag) with
    | some c => ∃ p, parentOf s c = some p ∧
        processEvent s (.endTag tag) = { s with curr := p }
    | none => processEvent s (.endTag tag) = s := by
  have hspec := findClosing_spec hw tag s.nodes.length s.curr hw.curr_lt hw.curr_lt
  cases hfind : ((ancChain s s.nodes.length s.curr).takeWhile (fun j => !(isDocB s j))).find?
      (fun j => isTagNamedB s j tag) with
  | none =>
    show endtag_handle s tag = s
    unfold endtag_handle
    rw [hspec, hfind]
  | some c =>
    have hnamed0 := List.find?_some hfind
    have hnamed : isTagNamedB s c tag = true := by simpa using hnamed0
    have hc0 : c ≠ 0 := isTagNamedB_ne_zero hw hnamed
    have hcsome : ∃ nc, getNode? s c = some nc := by
      unfold isTagNamedB at hnamed
      cases hn : getNode? s c with
      | none => rw [hn] at hnamed; cases hnamed
      | some nc => exact ⟨nc, rfl⟩
    obtain ⟨nc, hnc⟩ := hcsome
    have hpne := hw.parent_total c nc hnc hc0
    cases hp : nc.parent with
    | none => exact absurd hp hpne
    | some p =>
      have hp2 : parentOf s c = some p := by simp [parentOf, hnc, hp]
      refine ⟨p, hp2, ?_⟩
      show endtag_handle s tag = _
      unfold endtag_handle
      rw [hspec, hfind]
      show { s with curr := (parentOf s c).getD s.curr } = _
      rw [hp2]
      rfl

/-- Witness for C1: closing `</b>` after `<b><i>text` moves the cursor to
the parent of the `b` element (crossing the still-open `i`). -/
theorem c1_endtag_nearest_or_noop_witness :
    WFP sampleOpenTree ∧
    (match ((ancChain sampleOpenTree sampleOpenTree.nodes.length
        sampleOpenTree.curr).takeWhile (fun j => !(isDocB sampleOpenTree j))).find?
        (fun j => isTagNamedB sampleOpenTree j "b") with
     | some c => ∃ p, parentOf sampleOpenTree c = some p ∧
         processEvent sampleOpenTree (.endTag "b") = { sampleOpenTree with curr := p }
     | none => processEvent sampleOpenTree (.endTag "b") = sampleOpenTree) :=
  ⟨wfp_processEvents _, @c1_endtag_nearest_or_noop sampleOpenTree (wfp_processEvents _) "b"⟩

/-- C2: a start-tag event creates exactly one new element node, whose
parent is the first container (document or element) on the cursor's
ancestor-or-self chain; the node is appended as that parent's last child,
the cursor moves onto it, every other node is untouched, and the new
node's attribute dictionary reads back the attribute list with the last
value winning on duplicate names. -/
theorem c2_starttag_inserts_element {s : ParserState} (hw : WFP s) (tag : String)
    (attrs : List (String × String)) :
    ∃ p, (ancChain s s.nodes.length s.curr).find? (fun j => isContainerB s j) = some p ∧
      isContainerB s p = true ∧ AncOrSelf s p s.curr ∧
      (processEvent s (.startTag tag attrs)).nodes.length = s.nodes.length + 1 ∧
      getNode? (processEvent s (.startTag tag attrs)) s.nodes.length =
        some ⟨.tag tag (dictUpdate [] attrs), some p, []⟩ ∧
      childsOf (processEvent s (.startTag tag attrs)) p = childsOf s p ++ [s.nodes.length] ∧
      (∀ j, j ≠ p → j ≠ s.nodes.length →
        getNode? (processEvent s (.startTag tag attrs)) j = getNode? s j) ∧
      (processEvent s (.startTag tag attrs)).curr = s.nodes.length ∧
      (∀ k, dictGet? (dictUpdate [] attrs) k = lastWins attrs k) := by
  have hfind := ancChain_find_container hw hw.curr_lt
  obtain ⟨hcont, hncont⟩ := findParent_spec hw hw.curr_lt
  have hplen : findParent s s.nodes.length s.curr < s.nodes.length := by
    by_cases hc : isContainerB s s.curr = true
    · rw [hcont hc]
      exact hw.curr_lt
    · obtain ⟨p, hp, _, heq⟩ := hncont (by
        cases h : isContainerB s s.curr
        · rfl
        · exact absurd h hc)
      rw [heq]
      have := parentOf_lt hw hp
      have := hw.curr_lt
      omega
  have hpcont : isContainerB s (findParent s s.nodes.length s.curr) = true := by
    by_cases hc : isContainerB s s.curr = true
    · rw [hcont hc]
      exact hc
    · obtain ⟨p, hp, hpc, heq⟩ := hncont (by
        cases h : isContainerB s s.curr
        · rfl
        · exact absurd h hc)
      rw [heq]
      exact hpc
  have hanc : AncOrSelf s (findParent s s.nodes.length s.curr) s.curr := by
    by_cases hc : isContainerB s s.curr = true
    · rw [hcont hc]
      exact AncOrSelf.refl _
    · obtain ⟨p, hp, _, heq⟩ := hncont (by
        cases h : isContainerB s s.curr
        · rfl
        · exact absurd h hc)
      rw [heq]
      exact AncOrSelf.step hp (AncOrSelf.refl p)
  obtain ⟨h1, h2, h3, h4, h5⟩ := starttag_state s tag attrs hplen
  exact ⟨findParent s s.nodes.length s.curr, hfind, hpcont, hanc, h1, h2, h3, h4, h5,
    fun k => dictGet?_dictUpdate_nil attrs k⟩

/-- Witness for C2: a start tag with a duplicate attribute name on the
sample tree; the duplicate resolves to the last value (`id = "2"`). -/
theorem c2_starttag_inserts_element_witness :
    WFP sampleTree ∧
    (∃ p, (ancChain sampleTree sampleTree.nodes.length sampleTree.curr).find?
        (fun j => isContainerB sampleTree j) = some p ∧
      isContainerB sampleTree p = true ∧ AncOrSelf sampleTree p sampleTree.curr ∧
      (processEvent sampleTree (.startTag "a" [("id", "1"), ("id", "2")])).nodes.length =
        sampleTree.nodes.length + 1 ∧
      getNode? (processEvent sampleTree (.startTag "a" [("id", "1"), ("id", "2")]))
          sampleTree.nodes.length =
        some ⟨.tag "a" (dictUpdate [] [("id", "1"), ("id", "2")]), some p, []⟩ ∧
      childsOf (processEvent sampleTree (.startTag "a" [("id", "1"), ("id", "2")])) p =
        childsOf sampleTree p ++ [sampleTree.nodes.length] ∧
      (∀ j, j ≠ p → j ≠ sampleTree.nodes.length →
        getNode? (processEvent sampleTree (.startTag "a" [("id", "1"), ("id", "2")])) j =
          getNode? sampleTree j) ∧
      (processEvent sampleTree (.startTag "a" [("id", "1"), ("id", "2")])).curr =
        sampleTree.nodes.length ∧
      (∀ k, dictGet? (dictUpdate [] [("id", "1"), ("id", "2")]) k =
        lastWins [("id", "1"), ("id", "2")] k)) ∧
    dictGet? (dictUpdate [] [("id", "1"), ("id", "2")]) "id" = some "2" :=
  ⟨wfp_processEvents _,
   @c2_starttag_inserts_element sampleTree (wfp_processEvents _) "a" [("id", "1"), ("id", "2")],
   by decide⟩

/-- C3: consecutive text-producing events coalesce into a single data
node's buffer: two data events equal one carrying the concatenation;
entity and character references route through the very same data path;
and in every state reachable from the fresh parser no child list contains
two adjacent data nodes. -/
theorem c3_text_coalescing :
    (∀ (s : ParserState) (a b : String),
      processEvents s [.dataEv a, .dataEv b] = processEvent s (.dataEv (a ++ b))) ∧
    (∀ (s : ParserState) (en : String),
      processEvent s (.entityRef en) = processEvent s (.dataEv (resolveEntityRef en))) ∧
    (∀ (s : ParserState) (cn : String),
      processEvent s (.charRef cn) = processEvent s (.dataEv (resolveCharRef cn))) ∧
    (∀ (es : List HtmlEvent) (i : Nat) (n : HtmlNode),
      getNode? (processEvents initState es) i = some n →
      noAdjData (processEvents initState es) n.childs = true) := by
  refine ⟨?_, ?_, ?_, ?_⟩
  · intro s a b
    exact data_handle_fuse s a b
  · intro s en
    rfl
  · intro s cn
    rfl
  · intro es i n hn
    exact (wfp_processEvents es).no_adj i n hn

/-- Witness for C3: feeding `Data("a")` then `Data("b")` to the fresh
parser produces a single data node holding `"ab"`, and the resulting
child lists carry no adjacent data pair. -/
theorem c3_text_coalescing_witness :
    processEvents initState [.dataEv "a", .dataEv "b"] =
      processEvent initState (.dataEv ("a" ++ "b")) ∧
    getNode? (processEvents initState [.dataEv "a", .dataEv "b"]) 1 =
      some ⟨.data "ab", some 0, []⟩ ∧
    noAdjData (processEvents initState [.dataEv "a", .dataEv "b"])
      (childsOf (processEvents initState [.dataEv "a", .dataEv "b"]) 0) = true :=
  ⟨c3_text_coalescing.1 initState "a" "b", by decide,
   c3_text_coalescing.2.2.2 [.dataEv "a", .dataEv "b"] 0 ⟨.doc [], none, [1]⟩ (by decide)⟩

/-- C4: reference resolution is total and never raises: a name found in
the fixed table resolves to the single-character string of its codepoint
(always a valid `chr` argument); an unknown name falls back to the
literal `&name;`.  A char-ref body starting with lowercase `x` parses as
base 16, any other body as base 10; a successful parse with a valid
codepoint inserts the character, any failure falls back to the literal
`&#body;`.  Both handlers insert the resolved text through the ordinary
data path. -/
theorem c4_reference_resolution_total :
    (∀ ename code, name2codepoint.lookup ename = some code →
      ∃ t, pyChr (code : Int) = some t ∧ resolveEntityRef ename = t) ∧
    (∀ ename, name2codepoint.lookup ename = none →
      resolveEntityRef ename = "&" ++ ename ++ ";") ∧
    (∀ cname rest, cname.toList = 'x' :: rest →
      charRefCode cname = pyInt 16 (String.mk rest)) ∧
    (∀ cname, (∀ rest, cname.toList ≠ 'x' :: rest) → charRefCode cname = pyInt 10 cname) ∧
    (∀ cname code t, charRefCode cname = some code → pyChr code = some t →
      resolveCharRef cname = t) ∧
    (∀ cname code, charRefCode cname = some code → pyChr code = none →
      resolveCharRef cname = "&#" ++ cname ++ ";") ∧
    (∀ cname, charRefCode cname = none → resolveCharRef cname = "&#" ++ cname ++ ";") ∧
    resolveCharRef "65" = "A" ∧ resolveCharRef "x41" = "A" ∧
    resolveCharRef "zzz" = "&#zzz;" ∧ resolveEntityRef "amp" = "&" ∧
    (∀ (s : ParserState) (en : String),
      processEvent s (.entityRef en) = data_handle s (resolveEntityRef en)) ∧
    (∀ (s : ParserState) (cn : String),
      processEvent s (.charRef cn) = data_handle s (resolveCharRef cn)) := by
  refine ⟨?_, ?_, ?_, ?_, ?_, ?_, ?_, by decide, by decide, by decide, by decide,
    fun _ _ => rfl, fun _ _ => rfl⟩
  · intro ename code hcode
    have hmem : (ename, code) ∈ name2codepoint := lookup_mem hcode
    have hbound : code ≤ 1114111 := by
      have := List.all_eq_true.mp name2codepoint_bound (ename, code) hmem
      simpa using this
    have hchr : pyChr (code : Int) = some (String.mk [Char.ofNat code]) := by
      unfold pyChr
      rw [if_pos ⟨by omega, by exact_mod_cast hbound⟩]
      simp
    refine ⟨String.mk [Char.ofNat code], hchr, ?_⟩
    unfold resolveEntityRef
    simp only [hcode]
    rw [hchr]
  · intro ename hnone
    unfold resolveEntityRef
    rw [hnone]
  · intro cname rest hx
    unfold charRefCode
    rw [hx]
    rfl
  · intro cname hnx
    unfold charRefCode
    cases hl : cname.toList with
    | nil => rfl
    | cons c rest =>
      by_cases hc : c = 'x'
      · subst hc
        exact absurd hl (hnx rest)
      · simp [hc]
  · intro cname code t hcode hchr
    unfold resolveCharRef
    simp only [hcode]
    rw [hchr]
  · intro cname code hcode hchr
    unfold resolveCharRef
    simp only [hcode]
    rw [hchr]
  · intro cname hnone
    unfold resolveCharRef
    rw [hnone]

/-- Witness for C4: `amp` resolves through the table to `"&"`, `nbsp`
to U+00A0, hex and decimal references resolve, and failures fall back. -/
theorem c4_reference_resolution_total_witness :
    name2codepoint.lookup "amp" = some 38 ∧
    (∃ t, pyChr ((38 : Nat) : Int) = some t ∧ resolveEntityRef "amp" = t) ∧
    name2codepoint.lookup "notarealentity" = none ∧
    resolveEntityRef "notarealentity" = "&" ++ "notarealentity" ++ ";" ∧
    charRefCode "x41" = pyInt 16 (String.mk ['4', '1']) ∧
    charRefCode "zzz" = none ∧
    resolveCharRef "zzz" = "&#" ++ "zzz" ++ ";" :=
  ⟨by decide,
   c4_reference_resolution_total.1 "amp" 38 (by decide),
   by decide,
   c4_reference_resolution_total.2.1 "notarealentity" (by decide),
   c4_reference_resolution_total.2.2.1 "x41" ['4', '1'] (by decide),
   by decide,
   c4_reference_resolution_total.2.2.2.2.2.2.1 "zzz" (by decide)⟩

/-- Counterexample to C5 as stated: over the root list `[0, 1]` of the
sample tree (where node 1 lies inside node 0's closed subtree), node 1 is
a node of the roots' closed subtrees yet is yielded twice, not exactly
once. -/
theorem c5_bfs_traversal_cex :
    (get_all_nodes sampleTree [0, 1] false).count 1 = 2 ∧
    SubtreeRel sampleTree 0 1 ∧ SubtreeRel sampleTree 1 1 ∧
    ¬ (get_all_nodes sampleTree [0, 1] false).count 1 = 1 :=
  ⟨by decide,
   SubtreeRel.child (by decide) (by decide) (SubtreeRel.refl 1),
   SubtreeRel.refl 1,
   by decide⟩

/-- C5 (amended): on a well-formed store, for every root list whose
roots have pairwise disjoint closed subtrees, the non-direct traversal
yields every node of the closed subtrees of the roots exactly once and
no other node, in breadth-first level order (level 0 is the root sequence
itself, each next level the concatenated child lists of the previous
level's containers, text nodes contributing no children); on the sample
tree Document → a → (b, c) it yields `[0, 1, 2, 3]`. -/
theorem c5_bfs_traversal {s : ParserState} (hw : StoreWF s) (roots : List Nat)
    (hdisj : roots.Pairwise (fun r1 r2 => ∀ m, ¬(SubtreeRel s r1 m ∧ SubtreeRel s r2 m))) :
    (∀ n, (∃ r ∈ roots, SubtreeRel s r n) → (get_all_nodes s roots false).count n = 1) ∧
    (∀ n, (∀ r ∈ roots, ¬ SubtreeRel s r n) → (get_all_nodes s roots false).count n = 0) ∧
    get_all_nodes s roots false =
      (List.range (s.nodes.length + 1)).flatMap (fun k => (bfsExpand s)^[k] roots) ∧
    get_all_nodes sampleTree [0] false = [0, 1, 2, 3] := by
  refine ⟨?_, ?_, getAllNodesLoop_false_levels s (s.nodes.length + 1) roots, by decide⟩
  · intro n hex
    rw [get_all_nodes_count hw]
    obtain ⟨r, hr, hsub⟩ := hex
    have hpos : 0 < roots.countP (fun r => memSubtree s (s.nodes.length + 1) r n) :=
      List.countP_pos_iff.mpr ⟨r, hr, (memSubtree_iff_SubtreeRel hw r n).mpr hsub⟩
    have hle : roots.countP (fun r => memSubtree s (s.nodes.length + 1) r n) ≤ 1 := by
      apply countP_le_one_of_pairwise hdisj
      intro a b hab ⟨hpa, hpb⟩
      exact hab n ⟨(memSubtree_iff_SubtreeRel hw a n).mp hpa,
        (memSubtree_iff_SubtreeRel hw b n).mp hpb⟩
    omega
  · intro n hall
    rw [get_all_nodes_count hw]
    apply List.countP_eq_zero.mpr
    intro r hr hp
    exact hall r hr ((memSubtree_iff_SubtreeRel hw r n).mp hp)

/-- Witness for C5: the single document root of the sample tree. -/
theorem c5_bfs_traversal_witness :
    StoreWF sampleTree ∧
    (([0] : List Nat).Pairwise
      (fun r1 r2 => ∀ m, ¬(SubtreeRel sampleTree r1 m ∧ SubtreeRel sampleTree r2 m))) ∧
    ((∀ n, (∃ r ∈ ([0] : List Nat), SubtreeRel sampleTree r n) →
        (get_all_nodes sampleTree [0] false).count n = 1) ∧
      (∀ n, (∀ r ∈ ([0] : List Nat), ¬ SubtreeRel sampleTree r n) →
        (get_all_nodes sampleTree [0] false).count n = 0) ∧
      get_all_nodes sampleTree [0] false =
        (List.range (sampleTree.nodes.length + 1)).flatMap
          (fun k => (bfsExpand sampleTree)^[k] [0]) ∧
      get_all_nodes sampleTree [0] false = [0, 1, 2, 3]) :=
  ⟨(wfp_processEvents _).toStoreWF, List.pairwise_singleton _ _,
   @c5_bfs_traversal sampleTree (wfp_processEvents _).toStoreWF [0]
     (List.pairwise_singleton _ _)⟩

/-- Counterexample to C6 as stated: over the root list `[0, 1]` of the
sample tree, the direct-children traversal yields node 1 — which is
itself a root — and node 2, a grandchild of root 0. -/
theorem c6_direct_children_cex :
    get_all_nodes sampleTree [0, 1] true = [1, 2, 3] ∧
    (1 : Nat) ∈ ([0, 1] : List Nat) ∧
    (1 : Nat) ∈ get_all_nodes sampleTree [0, 1] true ∧
    (1 : Nat) ∈ childsOf sampleTree 0 ∧
    (2 : Nat) ∈ get_all_nodes sampleTree [0, 1] true ∧
    (2 : Nat) ∈ childsOf sampleTree 1 :=
  ⟨by decide, by decide, by decide, by decide, by decide, by decide⟩

/-- C6 (amended): the direct-only traversal yields exactly the
concatenation, in root order, of the direct children of each container
root, never recursing; and provided the roots' closed subtrees are
pairwise disjoint (in particular no root lies inside another root's
subtree), the roots themselves are never yielded and no grandchild or
deeper descendant of a root is ever yielded, however deep the tree is. -/
theorem c6_direct_children_only {s : ParserState} (hw : StoreWF s) (roots : List Nat)
    (hdisj : roots.Pairwise (fun r1 r2 => ∀ m, ¬(SubtreeRel s r1 m ∧ SubtreeRel s r2 m))) :
    get_all_nodes s roots true =
      roots.flatMap (fun r => if isContainerB s r then childsOf s r else []) ∧
    (∀ n ∈ get_all_nodes s roots true, n ∉ roots) ∧
    (∀ r ∈ roots, ∀ c ∈ childsOf s r, ∀ m, SubtreeRel s c m → m ≠ c →
      m ∉ get_all_nodes s roots true) ∧
    get_all_nodes sampleTree [0] true = [1] := by
  obtain ⟨h1, h2⟩ := get_all_nodes_direct_shallow hw hdisj
  exact ⟨get_all_nodes_direct s roots, h1, h2, by decide⟩

/-- Witness for C6: the single document root of the sample tree. -/
theorem c6_direct_children_only_witness :
    StoreWF sampleTree ∧
    (([0] : List Nat).Pairwise
      (fun r1 r2 => ∀ m, ¬(SubtreeRel sampleTree r1 m ∧ SubtreeRel sampleTree r2 m))) ∧
    (get_all_nodes sampleTree [0] true =
      ([0] : List Nat).flatMap
        (fun r => if isContainerB sampleTree r then childsOf sampleTree r else []) ∧
    (∀ n ∈ get_all_nodes sampleTree [0] true, n ∉ ([0] : List Nat)) ∧
    (∀ r ∈ ([0] : List Nat), ∀ c ∈ childsOf sampleTree r, ∀ m,
      SubtreeRel sampleTree c m → m ≠ c → m ∉ get_all_nodes sampleTree [0] true) ∧
    get_all_nodes sampleTree [0] true = [1]) :=
  ⟨(wfp_processEvents _).toStoreWF, List.pairwise_singleton _ _,
   @c6_direct_children_only sampleTree (wfp_processEvents _).toStoreWF [0]
     (List.pairwise_singleton _ _)⟩

/-- Sample tree with one element carrying `class="x y"`. -/
def sampleClassTree : ParserState :=
  processEvents initState [.startTag "e" [("class", "x y")]]

/-- Sample tree with one element carrying `class="xy"`. -/
def sampleClassTree2 : ParserState :=
  processEvents initState [.startTag "e" [("class", "xy")]]

/-- C7: `find_tags` yields exactly the element nodes of the traversal
that pass all filters — name equality when a name is given, exact value
match for every `attrs` pair, and space-token membership for every
`in_attrs` pair; the output is a sublist of the traversal (order
preserved) and contains only tag nodes, so document and text nodes are
never yielded.  `in_attrs = [("class", "x")]` matches `class="x y"` but
not `class="xy"`. -/
theorem c7_find_tags_filter (s : ParserState) (roots : List Nat) (tagName : Option String)
    (attrs in_attrs : List (String × String)) (d : Bool) :
    (∀ i, i ∈ find_tags s roots tagName attrs in_attrs d ↔
      (i ∈ get_all_nodes s roots d ∧
        ∃ n nm nattrs, getNode? s i = some n ∧ n.kind = NodeKind.tag nm nattrs ∧
          (∀ w, tagName = some w → w = nm) ∧
          (∀ kv ∈ attrs, dictGet? nattrs kv.1 = some kv.2) ∧
          (∀ kv ∈ in_attrs, ∃ v, dictGet? nattrs kv.1 = some v ∧ kv.2 ∈ splitSpaces v))) ∧
    List.Sublist (find_tags s roots tagName attrs in_attrs d) (get_all_nodes s roots d) ∧
    (∀ i ∈ find_tags s roots tagName attrs in_attrs d, isTagB s i = true) ∧
    find_tags sampleClassTree [0] none [] [("class", "x")] false = [1] ∧
    find_tags sampleClassTree2 [0] none [] [("class", "x")] false = [] ∧
    find_tags sampleTree [0] (some "b") [] [] false = [2] := by
  refine ⟨?_, ?_, ?_, by decide, by decide, by decide⟩
  · intro i
    unfold find_tags
    rw [List.mem_filter]
    rw [check_filter_iff]
  · exact List.filter_sublist _
  · intro i hi
    unfold find_tags at hi
    have h2 := (List.mem_filter.mp hi).2
    obtain ⟨n, nm, nattrs, hn, hk, _⟩ := (check_filter_iff s tagName attrs in_attrs i).mp h2
    unfold isTagB
    rw [hn]
    simp [HtmlNode.isTag, hk]

/-- Witness for C7: membership characterisation instantiated on the
`class="x y"` sample. -/
theorem c7_find_tags_filter_witness :
    ((1 : Nat) ∈ find_tags sampleClassTree [0] none [] [("class", "x")] false ↔
      ((1 : Nat) ∈ get_all_nodes sampleClassTree [0] false ∧
        ∃ n nm nattrs, getNode? sampleClassTree 1 = some n ∧
          n.kind = NodeKind.tag nm nattrs ∧
          (∀ w, (none : Option String) = some w → w = nm) ∧
          (∀ kv ∈ ([] : List (String × String)), dictGet? nattrs kv.1 = some kv.2) ∧
          (∀ kv ∈ [("class", "x")], ∃ v, dictGet? nattrs kv.1 = some v ∧
            kv.2 ∈ splitSpaces v))) ∧
    (1 : Nat) ∈ find_tags sampleClassTree [0] none [] [("class", "x")] false :=
  ⟨(c7_find_tags_filter sampleClassTree [0] none [] [("class", "x")] false).1 1,
   by decide⟩

/-- C8: after a fresh parser processes any event sequence, the nodes form
a single rooted tree: node 0 is the unique, parentless document node;
every other stored node has exactly one parent, appears exactly once in
that parent's child list and in no other child list, its parent reference
points strictly upward (so there are no cycles and no sharing), every
stored node is reachable from the document node along parent links, and
the cursor always denotes a stored node of this tree. -/
theorem c8_single_rooted_tree (es : List HtmlEvent) :
    0 < (processEvents initState es).nodes.length ∧
    isDocB (processEvents initState es) 0 = true ∧
    parentOf (processEvents initState es) 0 = none ∧
    (∀ i, isDocB (processEvents initState es) i = true → i = 0) ∧
    (∀ j, 0 < j → j < (processEvents initState es).nodes.length →
      ∃ p, parentOf (processEvents initState es) j = some p ∧ p < j ∧
        (childsOf (processEvents initState es) p).count j = 1 ∧
        (∀ i, j ∈ childsOf (processEvents initState es) i → i = p)) ∧
    (∀ j, j < (processEvents initState es).nodes.length →
      AncOrSelf (processEvents initState es) 0 j) ∧
    (processEvents initState es).curr < (processEvents initState es).nodes.length ∧
    AncOrSelf (processEvents initState es) 0 (processEvents initState es).curr := by
  have hw := wfp_processEvents es
  exact ⟨hw.len_pos, hw.root_doc, hw.root_parent, hw.doc_unique,
    fun j hj0 hjlen => wfp_unique_parent hw hj0 hjlen,
    wfp_root_reach hw, hw.curr_lt, wfp_root_reach hw _ hw.curr_lt⟩

/-- Witness for C8: the sample build, with the unique-parent component
evaluated at node 2 (child of element 1). -/
theorem c8_single_rooted_tree_witness :
    isDocB sampleTree 0 = true ∧
    (∃ p, parentOf sampleTree 2 = some p ∧ p < 2 ∧
      (childsOf sampleTree p).count 2 = 1 ∧
      (∀ i, 2 ∈ childsOf sampleTree i → i = p)) ∧
    sampleTree.curr < sampleTree.nodes.length :=
  ⟨(c8_single_rooted_tree [.startTag "a" [], .startTag "b" [], .endTag "b",
      .startTag "c" []]).2.1,
   (c8_single_rooted_tree [.startTag "a" [], .startTag "b" [], .endTag "b",
      .startTag "c" []]).2.2.2.2.1 2 (by decide) (by decide),
   (c8_single_rooted_tree [.startTag "a" [], .startTag "b" [], .endTag "b",
      .startTag "c" []]).2.2.2.2.2.2.1⟩

/-- C9: the printer's explicit depth counter with ceiling 100 makes it
total — any recursion budget larger than the remaining distance to the
ceiling returns a result on every node of every store — and at the
ceiling it emits exactly the bounded `Error: level too big` diagnostic
line instead of recursing further. -/
theorem c9_print_depth_guard (s : ParserState) :
    (∀ fuel i level, 100 - level < fuel → (print_node s fuel i level).isSome = true) ∧
    (∀ fuel i level, 100 ≤ level →
      print_node s (fuel + 1) i level =
        some [indentStr (level * 2) ++ "Error: level too big"]) :=
  ⟨print_node_total s, fun fuel i level h => print_node_ceiling s fuel i level h⟩

set_option maxRecDepth 4000 in
/-- Witness for C9: printing the sample tree from its root with budget
101 succeeds, and a node already at level 100 prints the diagnostic. -/
theorem c9_print_depth_guard_witness :
    (100 - 0 < 101 ∧ (print_node sampleTree 101 0 0).isSome = true) ∧
    (100 ≤ 100 ∧ print_node sampleTree (4 + 1) 0 100 =
      some [indentStr (100 * 2) ++ "Error: level too big"]) :=
  ⟨⟨by decide, (c9_print_depth_guard sampleTree).1 101 0 0 (by decide)⟩,
   ⟨by decide, (c9_print_depth_guard sampleTree).2 4 0 100 (by decide)⟩⟩

/-- C10: the char-ref handler inherits Python's lenient integer parsing:
bodies that are not pure decimal-digit strings — a leading sign,
surrounding whitespace, an underscore between digits — still parse, so
`+65`, ` 65 ` and `6_5` all insert the character `A` (codepoint 65) as
ordinary text rather than the literal `&#...;` fallback. -/
theorem c10_charref_lenient_parse :
    pyInt 10 "+65" = some 65 ∧ pyInt 10 " 65 " = some 65 ∧ pyInt 10 "6_5" = some 65 ∧
    resolveCharRef "+65" = "A" ∧ resolveCharRef " 65 " = "A" ∧ resolveCharRef "6_5" = "A" ∧
    "+65".toList.all Char.isDigit = false ∧
    " 65 ".toList.all Char.isDigit = false ∧
    "6_5".toList.all Char.isDigit = false ∧
    (∀ s : ParserState, processEvent s (.charRef "+65") = processEvent s (.dataEv "A")) ∧
    (∀ s : ParserState, processEvent s (.charRef " 65 ") = processEvent s (.dataEv "A")) ∧
    (∀ s : ParserState, processEvent s (.charRef "6_5") = processEvent s (.dataEv "A")) := by
  refine ⟨by decide, by decide, by decide, by decide, by decide, by decide,
    by decide, by decide, by decide, ?_, ?_, ?_⟩
  · intro s
    show data_handle s (resolveCharRef "+65") = data_handle s "A"
    rw [show resolveCharRef "+65" = "A" by decide]
  · intro s
    show data_handle s (resolveCharRef " 65 ") = data_handle s "A"
    rw [show resolveCharRef " 65 " = "A" by decide]
  · intro s
    show data_handle s (resolveCharRef "6_5") = data_handle s "A"
    rw [show resolveCharRef "6_5" = "A" by decide]
